import Mathlib

/-!
CommunityProject: conversation aggregation and conversation keys

A shallow embedding of the message aggregation of `Pages/Messages.js`
(the `conversations` memo, `currentMessages`, the conversation search, the
read-reconciliation effect and `handleSendMessage`), of the conversation key of
`Pages/ItemDetails.js` (`handleContactDonor`), of the unread badge of `Layout/Layout.js`
and of the top contributors of `Pages/Impact.js`, with the properties proved about them.

Conventions of the embedding:
* a JavaScript string is the list of its UTF-16 code units (`Str`), so that string
  equality and the default ordering of `Array.prototype.sort` are the ones of the language;
* `created_date` holds the time value (milliseconds) that `new Date(msg.created_date)`
  yields, an integer;
* a `Map` is the list of its entries in insertion order;
* `Array.prototype.sort` is a stable sort driven by a comparator that returns a number.
-/

namespace CommunityProject

/-- A JavaScript string: its UTF-16 code units. -/
abbrev Str := List Nat

/-- A record of the `Message` entity, with the fields the pages read. -/
structure Message where
  id : Str
  conversation_id : Str
  sender_email : Str
  receiver_email : Str
  message : Str
  item_id : Option Str
  read : Bool
  flagged : Bool
  created_date : Int
deriving DecidableEq, Repr

/-- The logged-in user, as returned by `base44.auth.me()`. -/
structure User where
  email : Str
  full_name : Option Str
deriving DecidableEq, Repr

/-- The object stored in `convMap` for one thread (Messages.js, lines 80-86). -/
structure Conversation where
  id : Str
  otherUserEmail : Str
  lastMessage : Message
  unreadCount : Nat
  messages : List Message
deriving DecidableEq, Repr

/-! ## `Array.prototype.sort` -/

/-- Model of `Array.prototype.sort(cmp)`: a stable sort; `a` is placed before `b` when
`cmp a b` is negative, and elements that compare equal keep their order. -/
def arraySort {α : Type} (cmp : α → α → Int) (l : List α) : List α :=
  l.insertionSort (fun a b => cmp a b ≤ 0)

/-- The relational `<` of the language on two strings: lexicographic on code units,
a proper prefix being smaller. -/
def isLessThan : Str → Str → Bool
  | [], [] => false
  | [], _ :: _ => true
  | _ :: _, [] => false
  | x :: xs, y :: ys => if x < y then true else if y < x then false else isLessThan xs ys

/-- The default comparator of `sort()` on strings. -/
def sortCompare (x y : Str) : Int :=
  if isLessThan x y then -1 else if isLessThan y x then 1 else 0

/-- Model of `Array.prototype.join(sep)` on an array of strings. -/
def join (sep : Str) : List Str → Str
  | [] => []
  | [x] => x
  | x :: y :: rest => x ++ sep ++ join sep (y :: rest)

/-- The code unit of the underscore. -/
def underscore : Nat := 95

/-- The key of ItemDetails.js line 84: `[user.email, item.created_by].sort().join('_')`. -/
def conversationKey (a b : Str) : Str :=
  join [underscore] (arraySort sortCompare [a, b])

/-! ## `Map` in insertion order -/

namespace JSMap

/-- Model of `Map.prototype.get`. -/
def get {β : Type} : List (Str × β) → Str → Option β
  | [], _ => none
  | (k', v') :: m, k => if k' = k then some v' else get m k

/-- Model of `Map.prototype.has`. -/
def has {β : Type} (m : List (Str × β)) (k : Str) : Bool :=
  (get m k).isSome

/-- Model of `Map.prototype.set`: replaces the value of an existing key in place, and appends a
new key at the end. -/
def set {β : Type} : List (Str × β) → Str → β → List (Str × β)
  | [], k, v => [(k, v)]
  | (k', v') :: m, k, v => if k' = k then (k, v) :: m else (k', v') :: set m k v

/-- Model of `Map.prototype.values`, in insertion order. -/
def values {β : Type} (m : List (Str × β)) : List β :=
  m.map Prod.snd

end JSMap

/-! ## The `conversations` memo (Messages.js, lines 69-105) -/

/-- The test of line 75. -/
def involvesViewer (email : Str) (msg : Message) : Bool :=
  decide (msg.sender_email = email) || decide (msg.receiver_email = email)

/-- The test of line 92. -/
def isUnreadFor (email : Str) (msg : Message) : Bool :=
  decide (msg.receiver_email = email) && !msg.read

/-- The mutation of the conversation object by lines 90-98: push the message, count it
when unread, take it as `lastMessage` when strictly later. -/
def touch (email : Str) (msg : Message) (conv : Conversation) : Conversation :=
  let conv := { conv with messages := conv.messages ++ [msg] }
  let conv := if isUnreadFor email msg then { conv with unreadCount := conv.unreadCount + 1 }
    else conv
  if msg.created_date > conv.lastMessage.created_date then { conv with lastMessage := msg }
  else conv

/-- The object created at lines 80-86 for a thread seen for the first time. -/
def freshConversation (email : Str) (msg : Message) : Conversation :=
  { id := msg.conversation_id
    otherUserEmail := if msg.sender_email = email then msg.receiver_email else msg.sender_email
    lastMessage := msg
    unreadCount := 0
    messages := [] }

/-- The body of the `forEach` callback (lines 74-100), on the map built so far. -/
def aggregateStep (email : Str) (convMap : List (Str × Conversation)) (msg : Message) :
    List (Str × Conversation) :=
  if involvesViewer email msg then
    let convId := msg.conversation_id
    let convMap :=
      if !JSMap.has convMap convId then JSMap.set convMap convId (freshConversation email msg)
      else convMap
    match JSMap.get convMap convId with
    | none => convMap
    | some conv => JSMap.set convMap convId (touch email msg conv)
  else convMap

/-- The map after the `forEach` over all messages. -/
def buildConvMap (email : Str) (allMessages : List Message) : List (Str × Conversation) :=
  allMessages.foldl (aggregateStep email) []

/-- The comparator of lines 102-104. -/
def compareConversations (a b : Conversation) : Int :=
  b.lastMessage.created_date - a.lastMessage.created_date

/-- The `conversations` memo: empty without a user, otherwise the values of the map,
sorted by the comparator of lines 102-104. -/
def conversations (user : Option User) (allMessages : List Message) : List Conversation :=
  match user with
  | none => []
  | some user =>
    arraySort compareConversations (JSMap.values (buildConvMap user.email allMessages))

/-! ## `currentMessages` (Messages.js, lines 114-117) -/

/-- Line 114: `conversations.find(c => c.id === selectedConversation)`. -/
def currentConversation (convs : List Conversation) (selectedConversation : Option Str) :
    Option Conversation :=
  convs.find? (fun c => decide (some c.id = selectedConversation))

/-- The comparator of lines 115-116. -/
def compareMessages (a b : Message) : Int :=
  a.created_date - b.created_date

/-- Lines 115-117: the messages of the current conversation sorted by creation time, or
the empty array when there is no current conversation. -/
def currentMessages (convs : List Conversation) (selectedConversation : Option Str) :
    List Message :=
  match currentConversation convs selectedConversation with
  | none => []
  | some c => arraySort compareMessages c.messages

/-! ## The invariant of the aggregation loop -/

namespace JSMap

/-- Update the value stored at `k` with `f`, or store `f init` under `k` at the end when
`k` is absent: what one round of `has`/`set`/`get`/mutate amounts to. -/
def upsert {β : Type} (k : Str) (init : β) (f : β → β) : List (Str × β) → List (Str × β)
  | [] => [(k, f init)]
  | (k', v') :: m => if k' = k then (k, f v') :: m else (k', v') :: upsert k init f m

end JSMap

/-- The message involves the viewer and belongs to thread `k`. -/
def inThread (email k : Str) (x : Message) : Bool :=
  involvesViewer email x && decide (x.conversation_id = k)

/-- The counterpart named by one message: the participant picked at line 76. -/
def counterpartOf (email : Str) (x : Message) : Str :=
  if x.sender_email = email then x.receiver_email else x.sender_email

/-- What the entry stored under key `k` is, once the messages `l` have been processed. -/
structure ConvInv (email : Str) (l : List Message) (k : Str) (c : Conversation) : Prop where
  id_eq : c.id = k
  msgs : c.messages = l.filter (inThread email k)
  unread : c.unreadCount = c.messages.countP (isUnreadFor email)
  last : ∃ pre post, l = pre ++ c.lastMessage :: post ∧ inThread email k c.lastMessage = true ∧
    (∀ y ∈ pre, inThread email k y = true → y.created_date < c.lastMessage.created_date) ∧
    (∀ y ∈ post, inThread email k y = true → y.created_date ≤ c.lastMessage.created_date)
  other : ∃ x rest, c.messages = x :: rest ∧ c.otherUserEmail = counterpartOf email x

/-- What the map is, once the messages `l` have been processed. -/
structure MapInv (email : Str) (l : List Message) (m : List (Str × Conversation)) : Prop where
  nodup : (m.map Prod.fst).Nodup
  conv : ∀ p ∈ m, ConvInv email l p.1 p.2
  cover : ∀ x ∈ l, involvesViewer email x = true → x.conversation_id ∈ m.map Prod.fst
  perm : (m.flatMap (fun p => p.2.messages)).Perm (l.filter (involvesViewer email))

/-! ## Sample data -/

/-- The viewer of the samples, with e-mail `a`. -/
def sampleUser : User := { email := [97], full_name := none }

/-- A sample message between `a` and `b` in thread `a_b`. -/
def sampleMsg (id : Nat) (fromViewer read : Bool) (t : Int) : Message :=
  { id := [id]
    conversation_id := [97, 95, 98]
    sender_email := if fromViewer then [97] else [98]
    receiver_email := if fromViewer then [98] else [97]
    message := [104, 105]
    item_id := none
    read := read
    flagged := false
    created_date := t }

/-- A sample message from `c` to the viewer `a` in thread `a_c`. -/
def sampleMsgC (id : Nat) (t : Int) : Message :=
  { id := [id]
    conversation_id := [97, 95, 99]
    sender_email := [99]
    receiver_email := [97]
    message := [104, 101, 121]
    item_id := none
    read := false
    flagged := false
    created_date := t }

/-- A sample message between `b` and `c`, which does not involve the viewer `a`. -/
def sampleForeign (id : Nat) (t : Int) : Message :=
  { id := [id]
    conversation_id := [98, 95, 99]
    sender_email := [98]
    receiver_email := [99]
    message := [104, 105]
    item_id := none
    read := false
    flagged := false
    created_date := t }

/-- Sample input: two messages of thread `a_b`, one of `a_c`, one foreign. -/
def sampleMessages : List Message :=
  [sampleMsg 1 false false 10, sampleForeign 4 40, sampleMsg 2 true true 20, sampleMsgC 3 30]

/-- The conversation of thread `a_b` that the aggregation builds from the sample input. -/
def sampleConvAB : Conversation :=
  { id := [97, 95, 98]
    otherUserEmail := [98]
    lastMessage := sampleMsg 2 true true 20
    unreadCount := 1
    messages := [sampleMsg 1 false false 10, sampleMsg 2 true true 20] }

/-! ## The read-reconciliation effect (Messages.js, lines 119-128) -/

/-- Truthiness of `selectedConversation`: a string that is not empty; `null` and the
empty string are falsy. -/
def isTruthy (s : Option Str) : Bool :=
  match s with
  | some (_ :: _) => true
  | _ => false

/-- The constant `unreadMessages` of lines 121-123. -/
def unreadMessages (email : Str) (currentMessages : List Message) : List Message :=
  currentMessages.filter (fun msg => decide (msg.receiver_email = email) && !msg.read)

/-- One run of the effect body (lines 120-127): the message ids handed, in order, to
`markAsReadMutation.mutate`. -/
def markReadEffect (user : Option User) (selectedConversation : Option Str)
    (currentMessages : List Message) : List Str :=
  match user with
  | none => []
  | some user =>
    if isTruthy selectedConversation then
      (unreadMessages user.email currentMessages).map (fun msg => msg.id)
    else []

/-- The state one render of the `Messages` component works on. -/
structure Render where
  user : Option User
  selectedConversation : Option Str
  allMessages : List Message
deriving DecidableEq, Repr

/-- The value of `currentMessages` in a render. -/
def renderedMessages (r : Render) : List Message :=
  currentMessages (conversations r.user r.allMessages) r.selectedConversation

/-- The dependency array of line 128: `[selectedConversation, currentMessages.length]`. -/
def effectDeps (r : Render) : Option Str × Nat :=
  (r.selectedConversation, (renderedMessages r).length)

/-- The mark-read mutations issued over successive renders: `useEffect` runs the body
after the first render and after every render whose dependency array differs from the
one of the render before. The first argument is the dependency array of the previous
render, `none` before the first. -/
def markReadLog : Option (Option Str × Nat) → List Render → List Str
  | _, [] => []
  | prev, r :: rs =>
    (if prev = some (effectDeps r) then []
      else markReadEffect r.user r.selectedConversation (renderedMessages r)) ++
      markReadLog (some (effectDeps r)) rs

/-! ## The conversation search (Messages.js, lines 107-112) -/

/-- Model of `String.prototype.startsWith`. -/
def startsWith : Str → Str → Bool
  | _, [] => true
  | [], _ :: _ => false
  | x :: xs, y :: ys => decide (x = y) && startsWith xs ys

/-- Model of `String.prototype.includes`: the search string occurs at some position. -/
def includes : Str → Str → Bool
  | [], q => startsWith [] q
  | x :: xs, q => startsWith (x :: xs) q || includes xs q

/-- The callback of the `filter` of lines 107-112. `String.prototype.toLowerCase` is a
parameter; an absent user record or an absent `full_name` makes the name test
`undefined`, which is falsy. -/
def matchesSearch (toLowerCase : Str → Str) (users : List User) (searchQuery : Str)
    (conv : Conversation) : Bool :=
  let otherUser := users.find? (fun u => decide (u.email = conv.otherUserEmail))
  searchQuery.isEmpty ||
    (match otherUser.bind (fun u => u.full_name) with
      | some name => includes (toLowerCase name) (toLowerCase searchQuery)
      | none => false) ||
    includes (toLowerCase conv.lastMessage.message) (toLowerCase searchQuery)

/-- Lines 107-112: `filteredConversations`. -/
def filteredConversations (toLowerCase : Str → Str) (convs : List Conversation)
    (users : List User) (searchQuery : Str) : List Conversation :=
  convs.filter (matchesSearch toLowerCase users searchQuery)

/-- What `toLowerCase` does on strings of ASCII code units: `A`-`Z` become `a`-`z`. -/
def asciiLowerCase (s : Str) : Str :=
  s.map (fun c => if 65 ≤ c ∧ c ≤ 90 then c + 32 else c)

/-! ## The in-place sort of line 115 -/

/-- The conversations after line 115 has run: `Array.prototype.sort` sorts the `messages`
array of the conversation found at line 114 in place, so that object now holds the
sorted array; the other conversations are untouched. -/
def conversationsAfterSort : List Conversation → Option Str → List Conversation
  | [], _ => []
  | c :: cs, selectedConversation =>
    if some c.id = selectedConversation then
      { c with messages := arraySort compareMessages c.messages } :: cs
    else c :: conversationsAfterSort cs selectedConversation

/-! ## What the chat UI reads of a conversation -/

/-- The id, counterpart, `lastMessage`, `unreadCount` and ordered messages of a
conversation. -/
def summary (c : Conversation) : Str × Str × Message × Nat × List Message :=
  (c.id, c.otherUserEmail, c.lastMessage, c.unreadCount, arraySort compareMessages c.messages)

/-! ## More sample data -/

/-- The code units of a string literal of ASCII characters. -/
def str (s : String) : Str :=
  s.data.map Char.toNat

/-- The viewer of the scenario of the specification. -/
def alice : User := { email := str "alice@x.com", full_name := some (str "Alice") }

/-- The three messages of the scenario of the specification, with creation times
`t1`, `t2`, `t3`. -/
def scenarioMessages (t1 t2 t3 : Int) : List Message :=
  [ { id := str "1", conversation_id := str "alice@x.com_bob@y.com",
      sender_email := str "bob@y.com", receiver_email := str "alice@x.com",
      message := str "Hi", item_id := none, read := false, flagged := false,
      created_date := t1 },
    { id := str "2", conversation_id := str "alice@x.com_bob@y.com",
      sender_email := str "alice@x.com", receiver_email := str "bob@y.com",
      message := str "Hello", item_id := none, read := true, flagged := false,
      created_date := t2 },
    { id := str "3", conversation_id := str "alice@x.com_carol@z.com",
      sender_email := str "carol@z.com", receiver_email := str "alice@x.com",
      message := str "Hey", item_id := none, read := false, flagged := false,
      created_date := t3 } ]

/-- A message the viewer `a` addressed to `a`, unread, in thread `a_a`. -/
def selfMessage : Message :=
  { id := [49]
    conversation_id := [97, 95, 97]
    sender_email := [97]
    receiver_email := [97]
    message := [104, 105]
    item_id := none
    read := false
    flagged := false
    created_date := 10 }

/-- A thread `a_b` whose second and later message names `c`, not `b`, as the sender. -/
def disagreeingMessages : List Message :=
  [sampleMsg 1 false false 10, { sampleMsgC 2 20 with conversation_id := [97, 95, 98] }]

/-- Two successive renders with thread `a_b` selected: message 1 is unread in both, and a
second message has arrived in the later one. -/
def staleRenders : List Render :=
  [ { user := some sampleUser, selectedConversation := some [97, 95, 98],
      allMessages := [sampleMsg 1 false false 10] },
    { user := some sampleUser, selectedConversation := some [97, 95, 98],
      allMessages := [sampleMsg 1 false false 10, sampleMsg 2 true true 20] } ]

/-- A user record for `b`, named `Bob`. -/
def sampleBob : User := { email := [98], full_name := some (str "Bob") }

/-- Sample input ordered newest first, as `list("-created_date")` requests it. -/
def newestFirstMessages : List Message :=
  [sampleMsgC 3 30, sampleMsg 2 true true 20, sampleMsg 1 false false 10]

/-- The conversation of thread `a_b` as built from a newest-first input. -/
def newestFirstConv : Conversation :=
  { sampleConvAB with messages := [sampleMsg 2 true true 20, sampleMsg 1 false false 10] }

/-! ## `handleSendMessage` and the send mutation (Messages.js, lines 54-60 and 130-143) -/

/-- The code units that `String.prototype.trim` removes: the white space and line
terminator characters of the language. -/
def isWhiteSpace (c : Nat) : Bool :=
  decide (c = 9) || decide (c = 10) || decide (c = 11) || decide (c = 12) || decide (c = 13) ||
    decide (c = 32) || decide (c = 160) || decide (c = 5760) ||
    (decide (8192 ≤ c) && decide (c ≤ 8202)) || decide (c = 8232) || decide (c = 8233) ||
    decide (c = 8239) || decide (c = 8287) || decide (c = 12288) || decide (c = 65279)

/-- Model of `String.prototype.trim`: white space removed at both ends. -/
def trim (s : Str) : Str :=
  ((s.dropWhile isWhiteSpace).reverse.dropWhile isWhiteSpace).reverse

/-- The object handed to `sendMessageMutation.mutate` (lines 136-142). -/
structure MessageData where
  conversation_id : Option Str
  sender_email : Str
  receiver_email : Str
  message : Str
  item_id : Option Str
deriving DecidableEq, Repr

/-- What one call of `handleSendMessage` does: return at line 132, throw a `TypeError`
at line 134, or hand a message to the create mutation. -/
inductive SendOutcome where
  | returned
  | typeError
  | mutate (messageData : MessageData)
deriving DecidableEq, Repr

/-- Lines 130-143, for a logged-in user: `convs` is the `conversations` of the render,
`itemIdParam` the `item` URL parameter. Reading `otherUserEmail` of an undefined
`currentConversation` throws. -/
def handleSendMessage (user : User) (convs : List Conversation)
    (selectedConversation itemIdParam : Option Str) (messageText : Str) : SendOutcome :=
  if (trim messageText).isEmpty || !isTruthy selectedConversation then SendOutcome.returned
  else
    match currentConversation convs selectedConversation with
    | none => SendOutcome.typeError
    | some c =>
      SendOutcome.mutate
        { conversation_id := selectedConversation
          sender_email := user.email
          receiver_email := c.otherUserEmail
          message := messageText
          item_id := if isTruthy itemIdParam then itemIdParam else none }

/-- The state of the component that the send path can write. -/
structure ComposerState where
  messageText : Str
  selectedConversation : Option Str
  searchQuery : Str
deriving DecidableEq, Repr

/-- The `onSuccess` callback of `sendMessageMutation` (lines 56-59), on the state. -/
def sendOnSuccess (s : ComposerState) : ComposerState :=
  { s with messageText := [] }

/-- One submission of the form: the handler runs on the current state, and when it has
handed a message to the mutation, `onSuccess` runs only if the create succeeded
(`createSucceeds`); there is no `onError` callback. -/
def submitMessage (user : User) (convs : List Conversation) (itemIdParam : Option Str)
    (s : ComposerState) (createSucceeds : Bool) : SendOutcome × ComposerState :=
  match handleSendMessage user convs s.selectedConversation itemIdParam s.messageText with
  | SendOutcome.mutate messageData =>
    (SendOutcome.mutate messageData, if createSucceeds then sendOnSuccess s else s)
  | outcome => (outcome, s)

/-- Modelled from the spec: the record that `MessageStore.create` stores for a message
handed to it; the store is not in the repository. It assigns `id` and `createdAt` and
defaults `read` and `flagged` to false. -/
def createdRecord (messageData : MessageData) (id : Str) (createdAt : Int) : Message :=
  { id := id
    conversation_id := messageData.conversation_id.getD []
    sender_email := messageData.sender_email
    receiver_email := messageData.receiver_email
    message := messageData.message
    item_id := messageData.item_id
    read := false
    flagged := false
    created_date := createdAt }

/-- The message names the unordered pair of `viewer` and `x`. -/
def hasPair (viewer x : Str) (msg : Message) : Prop :=
  (msg.sender_email = viewer ∧ msg.receiver_email = x) ∨
    (msg.sender_email = x ∧ msg.receiver_email = viewer)

/-! ## The mark-read patch (Messages.js, line 63) -/

/-- The patch object of a `Message.update` call. -/
structure MessagePatch where
  read : Option Bool
  flagged : Option Bool
deriving DecidableEq, Repr

/-- The patch of line 63: `{ read: true }`. -/
def markReadPatch : MessagePatch :=
  { read := some true, flagged := none }

/-- Modelled from the spec: the partial update of `MessageStore.update`, which is not in
the repository: every field present in the patch replaces the stored field, the other
fields are kept. -/
def applyPatch (patch : MessagePatch) (m : Message) : Message :=
  { m with read := patch.read.getD m.read, flagged := patch.flagged.getD m.flagged }

/-- Modelled from the spec: `MessageStore.update(id, patch)` on the stored messages,
which is not in the repository: the record with the id is patched; the call fails
(`none`) when no record has the id. -/
def storeUpdate (store : List Message) (id : Str) (patch : MessagePatch) :
    Option (List Message) :=
  if store.any (fun m => decide (m.id = id)) then
    some (store.map (fun m => if m.id = id then applyPatch patch m else m))
  else none

/-! ## The unread badge of the layout (Layout.js, lines 52-63) -/

/-- The number set by `fetchUnreadMessages`: the length of
`Message.filter({receiver_email: user.email, read: false})`. -/
def layoutUnreadCount (email : Str) (messages : List Message) : Nat :=
  (messages.filter (fun m => decide (m.receiver_email = email) && decide (m.read = false))).length

/-! ## The top contributors of the Impact page (Impact.js, lines 83-86) -/

/-- A record of the `User` entity, with the fields the Impact page reads. -/
structure Contributor where
  email : Str
  full_name : Option Str
  items_donated : Int
deriving DecidableEq, Repr

/-- The comparator of line 85. -/
def compareContributors (a b : Contributor) : Int :=
  b.items_donated - a.items_donated

/-- Lines 83-86: `users.filter(...).sort(...).slice(0, 5)`. -/
def topContributors (users : List Contributor) : List Contributor :=
  (arraySort compareContributors (users.filter (fun u => decide (u.items_donated > 0)))).take 5

/-- Sample users with the given donation counts. -/
def sampleContributors : List Contributor :=
  [3, 0, 7, 1, 7, 2, 5, -1, 4].map (fun n => { email := [], full_name := none, items_donated := n })

/-! ## Records with missing fields -/

/-- A message record as it may arrive: every field read by the page may be missing
(`undefined`). A missing `created_date` makes `new Date(...)` an invalid date, whose time
value is `NaN`. -/
structure RawMessage where
  id : Option Str
  conversation_id : Option Str
  sender_email : Option Str
  receiver_email : Option Str
  message : Option Str
  read : Option Bool
  created_date : Option Int
deriving DecidableEq, Repr

/-- The conversation object built from raw records. -/
structure RawConversation where
  id : Option Str
  otherUserEmail : Option Str
  lastMessage : RawMessage
  unreadCount : Nat
  messages : List RawMessage
deriving DecidableEq, Repr

/-- The error a property read on `undefined` throws. -/
inductive JSError where
  | typeError
deriving DecidableEq, Repr

namespace RawMap

/-- Model of `Map.prototype.get` with keys that may be `undefined`. -/
def get {β : Type} : List (Option Str × β) → Option Str → Option β
  | [], _ => none
  | (k', v') :: m, k => if k' = k then some v' else get m k

/-- Model of `Map.prototype.has` with keys that may be `undefined`. -/
def has {β : Type} (m : List (Option Str × β)) (k : Option Str) : Bool :=
  (get m k).isSome

/-- Model of `Map.prototype.set` with keys that may be `undefined`. -/
def set {β : Type} : List (Option Str × β) → Option Str → β → List (Option Str × β)
  | [], k, v => [(k, v)]
  | (k', v') :: m, k, v => if k' = k then (k, v) :: m else (k', v') :: set m k v

end RawMap

/-- The test of line 75 on a raw record: `===` against the viewer's e-mail. -/
def involvesViewerRaw (email : Str) (msg : RawMessage) : Bool :=
  decide (msg.sender_email = some email) || decide (msg.receiver_email = some email)

/-- The test of line 92 on a raw record: `!msg.read` is true for `false` and for a
missing flag. -/
def isUnreadForRaw (email : Str) (msg : RawMessage) : Bool :=
  decide (msg.receiver_email = some email) && !(msg.read.getD false)

/-- The comparison of line 96 on time values: false as soon as one of them is `NaN`. -/
def dateGreater (a b : Option Int) : Bool :=
  match a, b with
  | some x, some y => decide (x > y)
  | _, _ => false

/-- The difference of two dates as `sort` uses it: a `NaN` result counts as `0`. -/
def dateDifference (a b : Option Int) : Int :=
  match a, b with
  | some x, some y => x - y
  | _, _ => 0

/-- Lines 90-98 on raw records. -/
def touchRaw (email : Str) (msg : RawMessage) (conv : RawConversation) : RawConversation :=
  let conv := { conv with messages := conv.messages ++ [msg] }
  let conv := if isUnreadForRaw email msg then { conv with unreadCount := conv.unreadCount + 1 }
    else conv
  if dateGreater msg.created_date conv.lastMessage.created_date then
    { conv with lastMessage := msg }
  else conv

/-- Lines 80-86 on raw records. -/
def freshRawConversation (email : Str) (msg : RawMessage) : RawConversation :=
  { id := msg.conversation_id
    otherUserEmail :=
      if msg.sender_email = some email then msg.receiver_email else msg.sender_email
    lastMessage := msg
    unreadCount := 0
    messages := [] }

/-- The body of the `forEach` callback on raw records; reading `conv.messages` when
`convMap.get` has returned `undefined` throws. -/
def aggregateStepRaw (email : Str) (convMap : List (Option Str × RawConversation))
    (msg : RawMessage) : Except JSError (List (Option Str × RawConversation)) :=
  if involvesViewerRaw email msg then
    let convId := msg.conversation_id
    let convMap :=
      if !RawMap.has convMap convId then
        RawMap.set convMap convId (freshRawConversation email msg)
      else convMap
    match RawMap.get convMap convId with
    | none => Except.error JSError.typeError
    | some conv => Except.ok (RawMap.set convMap convId (touchRaw email msg conv))
  else Except.ok convMap

/-- The `forEach` of lines 74-100 on raw records: an error thrown by the callback ends
the loop. -/
def forEachRaw (email : Str) :
    List (Option Str × RawConversation) → List RawMessage →
      Except JSError (List (Option Str × RawConversation))
  | convMap, [] => Except.ok convMap
  | convMap, msg :: rest =>
    match aggregateStepRaw email convMap msg with
    | Except.error e => Except.error e
    | Except.ok convMap2 => forEachRaw email convMap2 rest

/-- The comparator of lines 102-104 on raw records. -/
def compareRawConversations (a b : RawConversation) : Int :=
  dateDifference b.lastMessage.created_date a.lastMessage.created_date

/-- The `conversations` memo on raw records. When creation times are missing the
comparator is not consistent and the order of the result depends on the engine; the
stable insertion order is one such order. -/
def conversationsRaw (user : Option User) (allMessages : List RawMessage) :
    Except JSError (List RawConversation) :=
  match user with
  | none => Except.ok []
  | some user =>
    match forEachRaw user.email [] allMessages with
    | Except.error e => Except.error e
    | Except.ok convMap =>
      Except.ok (arraySort compareRawConversations (convMap.map Prod.snd))

/-- The callback of lines 107-112 on raw records: with `?.`, a missing user record, a
missing `full_name` and a missing `message` make their test `undefined`, which is
falsy. -/
def matchesSearchRaw (toLowerCase : Str → Str) (users : List User) (searchQuery : Str)
    (conv : RawConversation) : Bool :=
  let otherUser := users.find? (fun u => decide (some u.email = conv.otherUserEmail))
  searchQuery.isEmpty ||
    (match otherUser.bind (fun u => u.full_name) with
      | some name => includes (toLowerCase name) (toLowerCase searchQuery)
      | none => false) ||
    (match conv.lastMessage.message with
      | some body => includes (toLowerCase body) (toLowerCase searchQuery)
      | none => false)

/-- Lines 107-112 on raw records. -/
def filteredConversationsRaw (toLowerCase : Str → Str) (convs : List RawConversation)
    (users : List User) (searchQuery : Str) : List RawConversation :=
  convs.filter (matchesSearchRaw toLowerCase users searchQuery)

/-- The unread count of every entry of the map is the count over its messages. -/
def RawCounted (email : Str) (m : List (Option Str × RawConversation)) : Prop :=
  ∀ p ∈ m, p.2.unreadCount = p.2.messages.countP (isUnreadForRaw email)

/-- A raw record with every field missing but the receiver, the viewer `a`. -/
def bareMessage : RawMessage :=
  { id := none, conversation_id := none, sender_email := none, receiver_email := some [97],
    message := none, read := none, created_date := none }

/-! ## The aggregation on arrays that can be written

To see which arrays the aggregation and `currentMessages` write, the arrays of messages
are put on a heap: an array is an address, `push` and the in-place `sort` write the array
at an address, and `[]` allocates a new one. The input `allMessages` is one of the arrays.
Message records are never assigned to in lines 69-117, so an array holds them by value. -/

/-- The arrays of messages that exist, by address. -/
abbrev ArrayHeap := List (List Message)

/-- The content of the array at an address. -/
def readArray (heap : ArrayHeap) (a : Nat) : List Message :=
  heap.getD a []

/-- A conversation object whose `messages` field is the address of its array. -/
structure ConvObject where
  id : Str
  otherUserEmail : Str
  lastMessage : Message
  unreadCount : Nat
  messages : Nat
deriving DecidableEq, Repr

/-- The conversation that an object stands for, with the content of its array. -/
def deref (heap : ArrayHeap) (c : ConvObject) : Conversation :=
  { id := c.id
    otherUserEmail := c.otherUserEmail
    lastMessage := c.lastMessage
    unreadCount := c.unreadCount
    messages := readArray heap c.messages }

/-- The object of lines 80-86, its `messages` a newly allocated array at `address`. -/
def freshObject (email : Str) (msg : Message) (address : Nat) : ConvObject :=
  { id := msg.conversation_id
    otherUserEmail := if msg.sender_email = email then msg.receiver_email else msg.sender_email
    lastMessage := msg
    unreadCount := 0
    messages := address }

/-- Lines 92-98 on an object: the count and `lastMessage` (the `push` of line 90 writes
the heap). -/
def touchObject (email : Str) (msg : Message) (conv : ConvObject) : ConvObject :=
  let conv := if isUnreadFor email msg then { conv with unreadCount := conv.unreadCount + 1 }
    else conv
  if msg.created_date > conv.lastMessage.created_date then { conv with lastMessage := msg }
  else conv

/-- The body of the `forEach` callback (lines 74-100) on the heap and the map: `[]`
allocates an array at the next free address, `push` writes the array of the
conversation. -/
def heapStep (email : Str) (st : ArrayHeap × List (Str × ConvObject)) (msg : Message) :
    ArrayHeap × List (Str × ConvObject) :=
  if involvesViewer email msg then
    let convId := msg.conversation_id
    let st :=
      if !JSMap.has st.2 convId then
        (st.1 ++ [[]], JSMap.set st.2 convId (freshObject email msg st.1.length))
      else st
    match JSMap.get st.2 convId with
    | none => st
    | some conv =>
      (st.1.set conv.messages (readArray st.1 conv.messages ++ [msg]),
        JSMap.set st.2 convId (touchObject email msg conv))
  else st

/-- The comparator of lines 102-104 on objects. -/
def compareObjects (a b : ConvObject) : Int :=
  b.lastMessage.created_date - a.lastMessage.created_date

/-- The `conversations` memo on the heap: `input` is the address of `allMessages`; the
result is the heap after the loop and the sorted array of conversation objects. -/
def heapConversations (user : Option User) (heap : ArrayHeap) (input : Nat) :
    ArrayHeap × List ConvObject :=
  match user with
  | none => (heap, [])
  | some user =>
    let st := (readArray heap input).foldl (heapStep user.email) (heap, [])
    (st.1, arraySort compareObjects (JSMap.values st.2))

/-- Lines 114-117 on the heap: the sort writes the array of the conversation found, and
that array is the value of `currentMessages`. -/
def heapCurrentMessages (heap : ArrayHeap) (convs : List ConvObject)
    (selectedConversation : Option Str) : ArrayHeap × List Message :=
  match convs.find? (fun c => decide (some c.id = selectedConversation)) with
  | none => (heap, [])
  | some c =>
    (heap.set c.messages (arraySort compareMessages (readArray heap c.messages)),
      arraySort compareMessages (readArray heap c.messages))

/-- The heap after one render: the aggregation, then `currentMessages`. -/
def heapAfterRender (user : Option User) (heap : ArrayHeap) (input : Nat)
    (selectedConversation : Option Str) : ArrayHeap :=
  (heapCurrentMessages (heapConversations user heap input).1
    (heapConversations user heap input).2 selectedConversation).1

/-- The conversations that an evaluation of the aggregation returns, with the content
of their arrays right after the evaluation. -/
def heapResult (user : Option User) (heap : ArrayHeap) (input : Nat) : List Conversation :=
  (heapConversations user heap input).2.map (deref (heapConversations user heap input).1)

/-- What links the heap and the map of objects to the map of conversations, `base`
being the number of arrays that existed before the aggregation started. -/
structure HeapInv (base : Nat) (heap0 heap : ArrayHeap) (mH : List (Str × ConvObject))
    (mP : List (Str × Conversation)) : Prop where
  frame : ∀ a, a < base → readArray heap a = readArray heap0 a
  len : base ≤ heap.length
  view : mH.map (fun p => (p.1, deref heap p.2)) = mP
  refs : ∀ p ∈ mH, base ≤ p.2.messages ∧ p.2.messages < heap.length
  nodup : (mH.map (fun p => p.2.messages)).Nodup

/-! ## The map operations -/

theorem JSMap.get_eq_none_iff {β : Type} (m : List (Str × β)) (k : Str) :
    JSMap.get m k = none ↔ k ∉ m.map Prod.fst := by
  induction m with
  | nil => simp [JSMap.get]
  | cons p m ih =>
    obtain ⟨k', v'⟩ := p
    by_cases h : k' = k
    · simp [JSMap.get, h]
    · have h2 : ¬ k = k' := fun e => h e.symm
      simp [JSMap.get, h, h2, ih]

theorem JSMap.upsert_of_get_some {β : Type} (k : Str) (init : β) (f : β → β) :
    ∀ (m : List (Str × β)) (v : β), JSMap.get m k = some v →
      JSMap.set m k (f v) = JSMap.upsert k init f m
  | [], v, h => by simp [JSMap.get] at h
  | (k', v') :: m, v, h => by
    by_cases hk : k' = k
    · simp only [JSMap.get, hk, if_true, Option.some.injEq] at h
      simp [JSMap.set, JSMap.upsert, hk, h]
    · simp only [JSMap.get, hk, if_false] at h
      simp [JSMap.set, JSMap.upsert, hk, JSMap.upsert_of_get_some k init f m v h]

theorem JSMap.get_set_of_get_none {β : Type} (k : Str) (init : β) :
    ∀ (m : List (Str × β)), JSMap.get m k = none → JSMap.get (JSMap.set m k init) k = some init
  | [], _ => by simp [JSMap.get, JSMap.set]
  | (k', v') :: m, h => by
    by_cases hk : k' = k
    · simp [JSMap.get, hk] at h
    · simp only [JSMap.get, hk, if_false] at h
      simp [JSMap.get, JSMap.set, hk, JSMap.get_set_of_get_none k init m h]

theorem JSMap.upsert_of_get_none {β : Type} (k : Str) (init : β) (f : β → β) :
    ∀ (m : List (Str × β)), JSMap.get m k = none →
      JSMap.set (JSMap.set m k init) k (f init) = JSMap.upsert k init f m
  | [], _ => by simp [JSMap.set, JSMap.upsert]
  | (k', v') :: m, h => by
    by_cases hk : k' = k
    · simp [JSMap.get, hk] at h
    · simp only [JSMap.get, hk, if_false] at h
      simp [JSMap.set, JSMap.upsert, hk, JSMap.upsert_of_get_none k init f m h]

/-- One round of the loop body is an `upsert` of the message's thread. -/
theorem aggregateStep_eq (email : Str) (m : List (Str × Conversation)) (msg : Message) :
    aggregateStep email m msg =
      if involvesViewer email msg then
        JSMap.upsert msg.conversation_id (freshConversation email msg) (touch email msg) m
      else m := by
  unfold aggregateStep
  by_cases hi : involvesViewer email msg = true
  · simp only [hi, if_true]
    cases hg : JSMap.get m msg.conversation_id with
    | none =>
      have hs := JSMap.get_set_of_get_none msg.conversation_id (freshConversation email msg) m hg
      simp only [JSMap.has, hg, Option.isSome_none, Bool.not_false, if_true, hs]
      exact JSMap.upsert_of_get_none _ _ _ m hg
    | some v =>
      simp only [JSMap.has, hg, Option.isSome_some, Bool.not_true, Bool.false_eq_true, if_false]
      exact JSMap.upsert_of_get_some _ _ _ m v hg
  · simp [hi]

theorem JSMap.keys_upsert {β : Type} (k : Str) (init : β) (f : β → β) :
    ∀ (m : List (Str × β)), (JSMap.upsert k init f m).map Prod.fst =
      if k ∈ m.map Prod.fst then m.map Prod.fst else m.map Prod.fst ++ [k]
  | [] => by simp [JSMap.upsert]
  | (k', v') :: m => by
    by_cases hk : k' = k
    · simp [JSMap.upsert, hk]
    · have hk2 : ¬ k = k' := fun e => hk e.symm
      have ih := JSMap.keys_upsert k init f m
      by_cases hm : k ∈ m.map Prod.fst
      · rw [if_pos hm] at ih
        simp only [JSMap.upsert, hk, if_false, List.map_cons, ih, List.mem_cons, hm, or_true,
          if_true]
      · rw [if_neg hm] at ih
        simp only [JSMap.upsert, hk, if_false, List.map_cons, ih, List.mem_cons, hm, hk2,
          or_self, List.cons_append]

theorem JSMap.mem_upsert {β : Type} (k : Str) (init : β) (f : β → β) :
    ∀ (m : List (Str × β)) (p : Str × β), (m.map Prod.fst).Nodup →
      p ∈ JSMap.upsert k init f m →
      (p ∈ m ∧ p.1 ≠ k) ∨ (∃ v, (k, v) ∈ m ∧ p = (k, f v)) ∨
        (k ∉ m.map Prod.fst ∧ p = (k, f init))
  | [], p, _, h => by
    simp only [JSMap.upsert, List.mem_singleton] at h
    exact Or.inr (Or.inr ⟨by simp, h⟩)
  | (k', v') :: m, p, hnd, h => by
    rw [List.map_cons, List.nodup_cons] at hnd
    by_cases hk : k' = k
    · simp only [JSMap.upsert, hk, if_true, List.mem_cons] at h
      rcases h with h | h
      · exact Or.inr (Or.inl ⟨v', by simp [hk], h⟩)
      · refine Or.inl ⟨List.mem_cons_of_mem _ h, ?_⟩
        intro hp
        have hmem := List.mem_map_of_mem Prod.fst h
        rw [hp] at hmem
        rw [hk] at hnd
        exact hnd.1 hmem
    · simp only [JSMap.upsert, hk, if_false, List.mem_cons] at h
      rcases h with h | h
      · refine Or.inl ⟨by simp [h], ?_⟩
        rw [h]
        exact hk
      · rcases JSMap.mem_upsert k init f m p hnd.2 h with h1 | ⟨v, hv, hp⟩ | ⟨hn, hp⟩
        · exact Or.inl ⟨List.mem_cons_of_mem _ h1.1, h1.2⟩
        · exact Or.inr (Or.inl ⟨v, List.mem_cons_of_mem _ hv, hp⟩)
        · refine Or.inr (Or.inr ⟨?_, hp⟩)
          have hk2 : ¬ k = k' := fun e => hk e.symm
          simpa [hk2] using hn

/-- An `upsert` whose update appends `x` to the messages adds exactly `x` to the
concatenation of all messages. -/
theorem JSMap.flatMap_upsert_perm (k : Str) (init : Conversation) (f : Conversation → Conversation)
    (x : Message) (hf : ∀ c, (f c).messages = c.messages ++ [x]) (hinit : init.messages = []) :
    ∀ (m : List (Str × Conversation)),
      ((JSMap.upsert k init f m).flatMap (fun p => p.2.messages)).Perm
        (m.flatMap (fun p => p.2.messages) ++ [x])
  | [] => by simp [JSMap.upsert, hf, hinit]
  | (k', v') :: m => by
    by_cases hk : k' = k
    · simp only [JSMap.upsert, hk, if_true, List.flatMap_cons, hf, List.append_assoc]
      refine List.Perm.append_left _ ?_
      exact List.perm_append_comm
    · simp only [JSMap.upsert, hk, if_false, List.flatMap_cons, List.append_assoc]
      exact List.Perm.append_left _ (JSMap.flatMap_upsert_perm k init f x hf hinit m)

/-! ## The mutation of one conversation -/

theorem touch_id (email : Str) (msg : Message) (c : Conversation) :
    (touch email msg c).id = c.id := by
  by_cases h1 : isUnreadFor email msg = true <;>
    by_cases h2 : msg.created_date > c.lastMessage.created_date <;>
    simp [touch, h1, h2]

theorem touch_otherUserEmail (email : Str) (msg : Message) (c : Conversation) :
    (touch email msg c).otherUserEmail = c.otherUserEmail := by
  by_cases h1 : isUnreadFor email msg = true <;>
    by_cases h2 : msg.created_date > c.lastMessage.created_date <;>
    simp [touch, h1, h2]

theorem touch_messages (email : Str) (msg : Message) (c : Conversation) :
    (touch email msg c).messages = c.messages ++ [msg] := by
  by_cases h1 : isUnreadFor email msg = true <;>
    by_cases h2 : msg.created_date > c.lastMessage.created_date <;>
    simp [touch, h1, h2]

theorem touch_unreadCount (email : Str) (msg : Message) (c : Conversation) :
    (touch email msg c).unreadCount =
      c.unreadCount + (if isUnreadFor email msg then 1 else 0) := by
  by_cases h1 : isUnreadFor email msg = true <;>
    by_cases h2 : msg.created_date > c.lastMessage.created_date <;>
    simp [touch, h1, h2]

theorem touch_lastMessage (email : Str) (msg : Message) (c : Conversation) :
    (touch email msg c).lastMessage =
      if msg.created_date > c.lastMessage.created_date then msg else c.lastMessage := by
  by_cases h1 : isUnreadFor email msg = true <;>
    by_cases h2 : msg.created_date > c.lastMessage.created_date <;>
    simp [touch, h1, h2]

/-! ## Preservation of the invariant -/

theorem ConvInv.skip {email : Str} {l : List Message} {k : Str} {c : Conversation}
    (h : ConvInv email l k c) (msg : Message) (hm : inThread email k msg = false) :
    ConvInv email (l ++ [msg]) k c := by
  refine ⟨h.id_eq, ?_, h.unread, ?_, h.other⟩
  · rw [List.filter_append, h.msgs]
    simp [hm]
  · obtain ⟨pre, post, hl, hin, hpre, hpost⟩ := h.last
    refine ⟨pre, post ++ [msg], ?_, hin, hpre, ?_⟩
    · rw [hl]
      simp
    · intro y hy hy2
      rw [List.mem_append, List.mem_singleton] at hy
      rcases hy with hy | hy
      · exact hpost y hy hy2
      · rw [hy, hm] at hy2
        exact absurd hy2 (by decide)

theorem ConvInv.touched {email : Str} {l : List Message} {k : Str} {c : Conversation}
    (h : ConvInv email l k c) (msg : Message) (hm : inThread email k msg = true) :
    ConvInv email (l ++ [msg]) k (touch email msg c) := by
  obtain ⟨pre, post, hl, hin, hpre, hpost⟩ := h.last
  obtain ⟨x, rest, hx, hother⟩ := h.other
  refine ⟨?_, ?_, ?_, ?_, ?_⟩
  · rw [touch_id]
    exact h.id_eq
  · rw [touch_messages, List.filter_append, h.msgs]
    simp [hm]
  · rw [touch_unreadCount, touch_messages, List.countP_append, h.unread]
    by_cases hu : isUnreadFor email msg = true
    · simp [hu]
    · simp [hu]
  · rw [touch_lastMessage]
    by_cases hgt : msg.created_date > c.lastMessage.created_date
    · rw [if_pos hgt]
      refine ⟨l, [], rfl, hm, ?_, ?_⟩
      · intro y hy hy2
        rw [hl, List.mem_append, List.mem_cons] at hy
        rcases hy with hy | hy | hy
        · exact lt_trans (hpre y hy hy2) hgt
        · rw [hy]
          exact hgt
        · exact lt_of_le_of_lt (hpost y hy hy2) hgt
      · intro y hy
        cases hy
    · rw [if_neg hgt]
      refine ⟨pre, post ++ [msg], ?_, hin, hpre, ?_⟩
      · rw [hl]
        simp
      · intro y hy hy2
        rw [List.mem_append, List.mem_singleton] at hy
        rcases hy with hy | hy
        · exact hpost y hy hy2
        · rw [hy]
          exact not_lt.mp hgt
  · refine ⟨x, rest ++ [msg], ?_, ?_⟩
    · rw [touch_messages, hx]
      rfl
    · rw [touch_otherUserEmail]
      exact hother

theorem ConvInv.fresh (email : Str) (l : List Message) (msg : Message)
    (hnone : ∀ x ∈ l, inThread email msg.conversation_id x = false)
    (hm : inThread email msg.conversation_id msg = true) :
    ConvInv email (l ++ [msg]) msg.conversation_id
      (touch email msg (freshConversation email msg)) := by
  have hfil : l.filter (inThread email msg.conversation_id) = [] := by
    rw [List.filter_eq_nil_iff]
    intro x hx
    rw [hnone x hx]
    decide
  refine ⟨?_, ?_, ?_, ?_, ?_⟩
  · rw [touch_id]
    rfl
  · rw [touch_messages, List.filter_append, hfil]
    simp [hm, freshConversation]
  · rw [touch_unreadCount, touch_messages]
    by_cases hu : isUnreadFor email msg = true
    · simp [hu, freshConversation]
    · simp [hu, freshConversation]
  · rw [touch_lastMessage]
    have hl : (freshConversation email msg).lastMessage = msg := rfl
    rw [hl, if_neg (lt_irrefl _)]
    refine ⟨l, [], rfl, hm, ?_, ?_⟩
    · intro y hy hy2
      rw [hnone y hy] at hy2
      exact absurd hy2 (by decide)
    · intro y hy
      cases hy
  · refine ⟨msg, [], ?_, ?_⟩
    · rw [touch_messages]
      rfl
    · rw [touch_otherUserEmail]
      rfl

theorem MapInv.nil (email : Str) : MapInv email [] [] :=
  ⟨List.nodup_nil, by simp, by simp, by simp⟩

theorem MapInv.step {email : Str} {l : List Message} {m : List (Str × Conversation)}
    (h : MapInv email l m) (msg : Message) :
    MapInv email (l ++ [msg]) (aggregateStep email m msg) := by
  rw [aggregateStep_eq]
  by_cases hi : involvesViewer email msg = true
  · rw [if_pos hi]
    have hmsg : inThread email msg.conversation_id msg = true := by
      simp [inThread, hi]
    have hkeys := JSMap.keys_upsert msg.conversation_id (freshConversation email msg)
      (touch email msg) m
    refine ⟨?_, ?_, ?_, ?_⟩
    · rw [hkeys]
      by_cases hk : msg.conversation_id ∈ m.map Prod.fst
      · rw [if_pos hk]
        exact h.nodup
      · rw [if_neg hk]
        rw [List.nodup_append]
        refine ⟨h.nodup, List.nodup_singleton _, ?_⟩
        intro a ha hb
        rw [List.mem_singleton] at hb
        rw [hb] at ha
        exact hk ha
    · intro p hp
      rcases JSMap.mem_upsert _ _ _ m p h.nodup hp with ⟨hpm, hne⟩ | ⟨v, hv, hpe⟩ | ⟨hn, hpe⟩
      · refine (h.conv p hpm).skip msg ?_
        have hne2 : ¬ msg.conversation_id = p.1 := fun e => hne e.symm
        simp [inThread, hne2]
      · rw [hpe]
        exact (h.conv _ hv).touched msg hmsg
      · rw [hpe]
        refine ConvInv.fresh email l msg ?_ hmsg
        intro x hx
        by_cases hxi : involvesViewer email x = true
        · have hxk := h.cover x hx hxi
          have hne : ¬ x.conversation_id = msg.conversation_id := by
            intro e
            rw [e] at hxk
            exact hn hxk
          simp [inThread, hne]
        · simp [inThread, hxi]
    · intro x hx hxi
      rw [hkeys]
      rw [List.mem_append, List.mem_singleton] at hx
      by_cases hk : msg.conversation_id ∈ m.map Prod.fst
      · rw [if_pos hk]
        rcases hx with hx | hx
        · exact h.cover x hx hxi
        · rw [hx]
          exact hk
      · rw [if_neg hk, List.mem_append, List.mem_singleton]
        rcases hx with hx | hx
        · exact Or.inl (h.cover x hx hxi)
        · exact Or.inr (by rw [hx])
    · have hp := JSMap.flatMap_upsert_perm msg.conversation_id (freshConversation email msg)
        (touch email msg) msg (touch_messages email msg) rfl m
      refine hp.trans ?_
      rw [List.filter_append]
      have hf : [msg].filter (involvesViewer email) = [msg] := by simp [hi]
      rw [hf]
      exact List.Perm.append_right _ h.perm
  · rw [if_neg hi]
    have hf : (l ++ [msg]).filter (involvesViewer email) = l.filter (involvesViewer email) := by
      rw [List.filter_append]
      simp [hi]
    have hno : ∀ k, inThread email k msg = false := by
      intro k
      simp [inThread, hi]
    refine ⟨h.nodup, ?_, ?_, ?_⟩
    · intro p hp
      exact (h.conv p hp).skip msg (hno p.1)
    · intro x hx hxi
      rw [List.mem_append, List.mem_singleton] at hx
      rcases hx with hx | hx
      · exact h.cover x hx hxi
      · rw [hx] at hxi
        exact absurd hxi hi
    · rw [hf]
      exact h.perm

/-- The invariant holds of the map built from the whole input. -/
theorem buildConvMap_inv (email : Str) (l : List Message) :
    MapInv email l (buildConvMap email l) := by
  induction l using List.reverseRecOn with
  | nil => exact MapInv.nil email
  | append_singleton l msg ih =>
    unfold buildConvMap at ih ⊢
    rw [List.foldl_append]
    exact ih.step msg

/-! ## The ordering of strings -/

theorem isLessThan_iff_lt : ∀ a b : Str, isLessThan a b = true ↔ a < b
  | [], [] => by simp [isLessThan]
  | [], y :: ys => by
    simp only [isLessThan, true_iff]
    exact List.Lex.nil
  | x :: xs, [] => by
    simp only [isLessThan, Bool.false_eq_true, false_iff]
    intro h
    cases h
  | x :: xs, y :: ys => by
    have ih := isLessThan_iff_lt xs ys
    unfold isLessThan
    by_cases hxy : x < y
    · simp only [hxy, if_true, true_iff]
      exact List.Lex.rel hxy
    · by_cases hyx : y < x
      · simp only [hxy, hyx, if_true, if_false, Bool.false_eq_true, false_iff]
        intro h
        cases h with
        | cons _ => exact lt_irrefl x hyx
        | rel h => exact hxy h
      · have hEq : x = y := le_antisymm (not_lt.mp hyx) (not_lt.mp hxy)
        subst hEq
        simp only [hxy, if_false]
        rw [ih]
        constructor
        · intro h
          exact List.Lex.cons h
        · intro h
          cases h with
          | cons h => exact h
          | rel h => exact absurd h hxy

theorem sortCompare_le_zero_iff (a b : Str) : sortCompare a b ≤ 0 ↔ a ≤ b := by
  unfold sortCompare
  by_cases hab : isLessThan a b = true
  · have h := (isLessThan_iff_lt a b).mp hab
    simp only [hab, if_true]
    constructor
    · intro _
      exact le_of_lt h
    · intro _
      decide
  · by_cases hba : isLessThan b a = true
    · have h := (isLessThan_iff_lt b a).mp hba
      simp only [hab, hba, if_true, if_false]
      constructor
      · intro h0
        exact absurd h0 (by decide)
      · intro hle
        exact absurd h (not_lt_of_le hle)
    · have h : ¬ b < a := fun h => hba ((isLessThan_iff_lt b a).mpr h)
      simp only [hab, hba, if_false]
      constructor
      · intro _
        exact le_of_not_lt h
      · intro _
        exact le_refl 0

/-- The key written out: the smaller identity, the underscore, the larger identity. -/
theorem conversationKey_eq (a b : Str) :
    conversationKey a b = if a ≤ b then a ++ underscore :: b else b ++ underscore :: a := by
  unfold conversationKey arraySort
  simp only [List.insertionSort, List.orderedInsert, sortCompare_le_zero_iff]
  by_cases h : a ≤ b
  · simp [h, join]
  · simp [h, join]

/-- Splitting a string at its first underscore is unambiguous. -/
theorem append_underscore_inj : ∀ (x x' y y' : Str), underscore ∉ x → underscore ∉ x' →
    x ++ underscore :: y = x' ++ underscore :: y' → x = x' ∧ y = y'
  | [], [], y, y', _, _, h => by
    simp only [List.nil_append, List.cons.injEq, true_and] at h
    exact ⟨rfl, h⟩
  | [], c :: x', y, y', _, hx', h => by
    simp only [List.nil_append, List.cons_append, List.cons.injEq] at h
    exact absurd (h.1 ▸ List.mem_cons_self c x') hx'
  | c :: x, [], y, y', hx, _, h => by
    simp only [List.nil_append, List.cons_append, List.cons.injEq] at h
    exact absurd (h.1 ▸ List.mem_cons_self c x) hx
  | c :: x, c' :: x', y, y', hx, hx', h => by
    simp only [List.cons_append, List.cons.injEq] at h
    have ih := append_underscore_inj x x' y y'
      (fun hm => hx (List.mem_cons_of_mem c hm)) (fun hm => hx' (List.mem_cons_of_mem c' hm)) h.2
    exact ⟨by rw [h.1, ih.1], ih.2⟩

/-! ## The sort -/

theorem arraySort_perm {α : Type} (cmp : α → α → Int) (l : List α) :
    (arraySort cmp l).Perm l :=
  List.perm_insertionSort _ l

theorem mem_arraySort {α : Type} (cmp : α → α → Int) (l : List α) (a : α) :
    a ∈ arraySort cmp l ↔ a ∈ l :=
  (arraySort_perm cmp l).mem_iff

/-- With a comparator that is total and transitive, the sorted array is ordered. -/
theorem arraySort_pairwise {α : Type} (cmp : α → α → Int)
    (htot : ∀ a b, cmp a b ≤ 0 ∨ cmp b a ≤ 0)
    (htr : ∀ a b c, cmp a b ≤ 0 → cmp b c ≤ 0 → cmp a c ≤ 0) (l : List α) :
    (arraySort cmp l).Pairwise (fun a b => cmp a b ≤ 0) := by
  haveI : IsTotal α (fun a b => cmp a b ≤ 0) := ⟨htot⟩
  haveI : IsTrans α (fun a b => cmp a b ≤ 0) := ⟨htr⟩
  exact List.sorted_insertionSort (fun a b => cmp a b ≤ 0) l

/-- The sort is stable: elements selected by `p` that all compare equal come out in the
order they went in. -/
theorem arraySort_filter_of_equal {α : Type} (cmp : α → α → Int) (p : α → Bool)
    (heq : ∀ a b, p a = true → p b = true → cmp a b ≤ 0) (l : List α) :
    (arraySort cmp l).filter p = l.filter p := by
  have hpw : (l.filter p).Pairwise (fun a b => cmp a b ≤ 0) := by
    apply List.pairwise_of_forall_mem_list
    intro a ha b hb
    exact heq a b (List.mem_filter.mp ha).2 (List.mem_filter.mp hb).2
  have hsub : List.Sublist (l.filter p) (arraySort cmp l) :=
    List.sublist_insertionSort hpw (List.filter_sublist l)
  have hsub2 : List.Sublist (l.filter p) ((arraySort cmp l).filter p) := by
    have := hsub.filter p
    rw [List.filter_filter] at this
    simpa only [Bool.and_self] using this
  have hlen : (l.filter p).length = ((arraySort cmp l).filter p).length :=
    ((arraySort_perm cmp l).filter p).length_eq.symm
  exact (hsub2.eq_of_length hlen).symm

/-! ## The aggregation, from the invariant -/

theorem involvesViewer_iff (email : Str) (msg : Message) :
    involvesViewer email msg = true ↔ msg.sender_email = email ∨ msg.receiver_email = email := by
  simp [involvesViewer]

theorem inThread_iff (email k : Str) (msg : Message) :
    inThread email k msg = true ↔
      (msg.sender_email = email ∨ msg.receiver_email = email) ∧ msg.conversation_id = k := by
  simp [inThread, involvesViewer]

theorem mem_conversations (user : User) (l : List Message) (c : Conversation) :
    c ∈ conversations (some user) l ↔ ∃ p ∈ buildConvMap user.email l, p.2 = c := by
  unfold conversations
  rw [mem_arraySort]
  simp [JSMap.values]

theorem conversations_perm_values (user : User) (l : List Message) :
    (conversations (some user) l).Perm ((buildConvMap user.email l).map Prod.snd) :=
  arraySort_perm _ _

/-- Every conversation returned satisfies the invariant for its own id. -/
theorem conversations_inv (user : User) (l : List Message) (c : Conversation)
    (hc : c ∈ conversations (some user) l) : ConvInv user.email l c.id c := by
  obtain ⟨p, hp, hpc⟩ := (mem_conversations user l c).mp hc
  have h := (buildConvMap_inv user.email l).conv p hp
  rw [hpc] at h
  have hid := h.id_eq
  rw [← hid] at h
  exact h

theorem conversations_ids_nodup (user : User) (l : List Message) :
    ((conversations (some user) l).map (fun c => c.id)).Nodup := by
  have hinv := buildConvMap_inv user.email l
  have hperm := (conversations_perm_values user l).map (fun c => c.id)
  rw [hperm.nodup_iff, List.map_map]
  have hfun : (buildConvMap user.email l).map ((fun c => c.id) ∘ Prod.snd) =
      (buildConvMap user.email l).map Prod.fst := by
    apply List.map_congr_left
    intro p hp
    exact (hinv.conv p hp).id_eq
  rw [hfun]
  exact hinv.nodup

theorem mem_conversations_ids (user : User) (l : List Message) (k : Str) :
    k ∈ (conversations (some user) l).map (fun c => c.id) ↔
      ∃ x ∈ l, (x.sender_email = user.email ∨ x.receiver_email = user.email) ∧
        x.conversation_id = k := by
  have hinv := buildConvMap_inv user.email l
  constructor
  · intro hk
    obtain ⟨c, hc, hck⟩ := List.mem_map.mp hk
    have h := conversations_inv user l c hc
    obtain ⟨pre, post, hl, hin, _, _⟩ := h.last
    refine ⟨c.lastMessage, ?_, ?_⟩
    · rw [hl]
      simp
    · rw [inThread_iff] at hin
      rw [← hck]
      exact hin
  · rintro ⟨x, hx, hxi, hxk⟩
    have hcov := hinv.cover x hx ((involvesViewer_iff _ _).mpr hxi)
    obtain ⟨p, hp, hpk⟩ := List.mem_map.mp hcov
    refine List.mem_map.mpr ⟨p.2, (mem_conversations user l p.2).mpr ⟨p, hp, rfl⟩, ?_⟩
    rw [(hinv.conv p hp).id_eq, hpk, hxk]

/-- Messages that do not involve the viewer leave the map untouched. -/
theorem foldl_aggregateStep_filter (email : Str) :
    ∀ (l : List Message) (m : List (Str × Conversation)),
      l.foldl (aggregateStep email) m = (l.filter (involvesViewer email)).foldl (aggregateStep email) m
  | [], _ => rfl
  | x :: l, m => by
    by_cases hx : involvesViewer email x = true
    · rw [List.filter_cons_of_pos hx, List.foldl_cons, List.foldl_cons]
      exact foldl_aggregateStep_filter email l _
    · rw [List.filter_cons_of_neg hx, List.foldl_cons]
      have hstep : aggregateStep email m x = m := by
        rw [aggregateStep_eq, if_neg hx]
      rw [hstep]
      exact foldl_aggregateStep_filter email l m

/-! ## Properties of the conversation key -/

/-- C8: the conversation key `[a, b].sort().join('_')` is commutative: the key computed
from `(a, b)` equals the key computed from `(b, a)`, for all identity strings. -/
theorem conversationKey_comm (a b : Str) : conversationKey a b = conversationKey b a := by
  rw [conversationKey_eq a b, conversationKey_eq b a]
  by_cases hab : a ≤ b
  · by_cases hba : b ≤ a
    · have hEq : a = b := le_antisymm hab hba
      subst hEq
      rfl
    · rw [if_pos hab, if_neg hba]
  · have hba : b ≤ a := le_of_lt (not_le.mp hab)
    rw [if_neg hab, if_pos hba]

/-- C9: the conversation key is the lexicographically smaller identity, then the single
delimiter `_` (code unit 95), then the lexicographically larger identity: `a + '_' + b`
when `a <= b`, otherwise `b + '_' + a`. -/
theorem conversationKey_smaller_first (a b : Str) :
    conversationKey a b = if a ≤ b then a ++ [95] ++ b else b ++ [95] ++ a := by
  rw [conversationKey_eq]
  simp [underscore]

/-- C10: for identities that do not contain the delimiter `_`, equal conversation keys
come from equal unordered pairs: `conversationKey a b = conversationKey c d` forces
`(a, b) = (c, d)` or `(a, b) = (d, c)`. -/
theorem conversationKey_identifies_pair (a b c d : Str)
    (ha : underscore ∉ a) (hb : underscore ∉ b) (hc : underscore ∉ c) (hd : underscore ∉ d)
    (h : conversationKey a b = conversationKey c d) :
    (a = c ∧ b = d) ∨ (a = d ∧ b = c) := by
  rw [conversationKey_eq a b, conversationKey_eq c d] at h
  by_cases hab : a ≤ b
  · by_cases hcd : c ≤ d
    · rw [if_pos hab, if_pos hcd] at h
      exact Or.inl (append_underscore_inj a c b d ha hc h)
    · rw [if_pos hab, if_neg hcd] at h
      exact Or.inr (append_underscore_inj a d b c ha hd h)
  · by_cases hcd : c ≤ d
    · rw [if_neg hab, if_pos hcd] at h
      have := append_underscore_inj b c a d hb hc h
      exact Or.inr ⟨this.2, this.1⟩
    · rw [if_neg hab, if_neg hcd] at h
      have := append_underscore_inj b d a c hb hd h
      exact Or.inl ⟨this.2, this.1⟩

/-- Witness for C10: the identities `a` and `b`, taken in both orders. -/
theorem conversationKey_identifies_pair_witness :
    (([97] : Str) = [98] ∧ ([98] : Str) = [97]) ∨ (([97] : Str) = [97] ∧ ([98] : Str) = [98]) :=
  conversationKey_identifies_pair [97] [98] [98] [97]
    (by decide) (by decide) (by decide) (by decide) (by decide)

/-! ## Properties of the aggregation -/

/-- C1 (completeness): the concatenation of the messages of all returned conversations
is a permutation of the input messages that involve the viewer, and every input message
that involves the viewer is in the messages of exactly one returned conversation, the
one whose id is the message's `conversation_id`. -/
theorem conversations_complete (user : User) (allMessages : List Message) :
    ((conversations (some user) allMessages).flatMap (fun c => c.messages)).Perm
        (allMessages.filter (fun msg =>
          decide (msg.sender_email = user.email) || decide (msg.receiver_email = user.email))) ∧
      ∀ msg ∈ allMessages, msg.sender_email = user.email ∨ msg.receiver_email = user.email →
        ∃ c ∈ conversations (some user) allMessages,
          c.id = msg.conversation_id ∧ msg ∈ c.messages ∧
            ∀ c' ∈ conversations (some user) allMessages, msg ∈ c'.messages → c' = c := by
  have hinv := buildConvMap_inv user.email allMessages
  constructor
  · refine ((conversations_perm_values user allMessages).flatMap_right _).trans ?_
    rw [List.flatMap_map]
    exact hinv.perm
  · intro msg hmsg hi
    have hk : msg.conversation_id ∈ (conversations (some user) allMessages).map (fun c => c.id) :=
      (mem_conversations_ids user allMessages _).mpr ⟨msg, hmsg, hi, rfl⟩
    obtain ⟨c, hc, hck⟩ := List.mem_map.mp hk
    refine ⟨c, hc, hck, ?_, ?_⟩
    · rw [(conversations_inv user allMessages c hc).msgs, List.mem_filter, inThread_iff]
      exact ⟨hmsg, hi, hck.symm⟩
    · intro c' hc' hm'
      rw [(conversations_inv user allMessages c' hc').msgs, List.mem_filter, inThread_iff] at hm'
      have hid : (fun c : Conversation => c.id) c' = (fun c : Conversation => c.id) c := by
        show c'.id = c.id
        rw [hck, hm'.2.2]
      exact List.inj_on_of_nodup_map (conversations_ids_nodup user allMessages) hc' hc hid

/-- C2 (exclusion): the aggregation of the input equals the aggregation of the input
with every message that does not involve the viewer removed, so such messages contribute
to nothing (no unread count, no `lastMessage`, no `messages`); and in every returned
conversation the `lastMessage` and every element of `messages` has the viewer as sender
or receiver. -/
theorem conversations_exclude (user : User) (allMessages : List Message) :
    conversations (some user) allMessages =
        conversations (some user) (allMessages.filter (fun msg =>
          decide (msg.sender_email = user.email) || decide (msg.receiver_email = user.email))) ∧
      ∀ c ∈ conversations (some user) allMessages,
        (c.lastMessage.sender_email = user.email ∨ c.lastMessage.receiver_email = user.email) ∧
          ∀ msg ∈ c.messages, msg.sender_email = user.email ∨ msg.receiver_email = user.email := by
  constructor
  · have h := foldl_aggregateStep_filter user.email allMessages []
    show arraySort compareConversations
        (JSMap.values (allMessages.foldl (aggregateStep user.email) [])) =
      arraySort compareConversations (JSMap.values
        ((allMessages.filter (involvesViewer user.email)).foldl (aggregateStep user.email) []))
    rw [h]
  · intro c hc
    have h := conversations_inv user allMessages c hc
    constructor
    · obtain ⟨pre, post, _, hin, _, _⟩ := h.last
      exact ((inThread_iff _ _ _).mp hin).1
    · intro msg hm
      rw [h.msgs, List.mem_filter, inThread_iff] at hm
      exact hm.2.1

/-- C3 (unread count): the `unreadCount` of every returned conversation is the number of
messages in its `messages` whose receiver is the viewer and whose read flag is false. -/
theorem conversations_unreadCount (user : User) (allMessages : List Message) (c : Conversation)
    (hc : c ∈ conversations (some user) allMessages) :
    c.unreadCount =
      (c.messages.filter (fun msg => decide (msg.receiver_email = user.email) && !msg.read)).length := by
  rw [(conversations_inv user allMessages c hc).unread, List.countP_eq_length_filter]
  rfl

/-- Witness for C3: the thread `a_b` of the sample input has one unread message. -/
theorem conversations_unreadCount_witness :
    sampleConvAB ∈ conversations (some sampleUser) sampleMessages ∧
      sampleConvAB.unreadCount =
        (sampleConvAB.messages.filter
          (fun msg => decide (msg.receiver_email = sampleUser.email) && !msg.read)).length :=
  ⟨by decide, conversations_unreadCount sampleUser sampleMessages sampleConvAB (by decide)⟩

/-- C4 (ordering of conversations): the returned list is sorted by the creation time of
`lastMessage`, latest first: of two conversations, the one at the earlier position has a
`lastMessage.created_date` greater than or equal to that of the later one. -/
theorem conversations_sorted (user : Option User) (allMessages : List Message) :
    (conversations user allMessages).Pairwise
      (fun a b => a.lastMessage.created_date ≥ b.lastMessage.created_date) := by
  cases user with
  | none => exact List.Pairwise.nil
  | some user =>
    have h := arraySort_pairwise compareConversations
      (by
        intro a b
        unfold compareConversations
        omega)
      (by
        intro a b c
        unfold compareConversations
        omega)
      (JSMap.values (buildConvMap user.email allMessages))
    refine List.Pairwise.imp ?_ h
    intro a b hab
    unfold compareConversations at hab
    omega

/-- C5 (lastMessage is the first maximum): in every returned conversation,
`lastMessage` is one of its `messages`, no message of the conversation has a strictly
later creation time, and `lastMessage` sits in the input after a prefix in which every
message of the conversation is strictly earlier, so among the messages tied at the
maximum it is the first of the input. -/
theorem conversations_lastMessage (user : User) (allMessages : List Message) (c : Conversation)
    (hc : c ∈ conversations (some user) allMessages) :
    c.lastMessage ∈ c.messages ∧
      (∀ msg ∈ c.messages, msg.created_date ≤ c.lastMessage.created_date) ∧
      ∃ pre post, allMessages = pre ++ c.lastMessage :: post ∧
        ∀ msg ∈ pre, msg ∈ c.messages → msg.created_date < c.lastMessage.created_date := by
  have h := conversations_inv user allMessages c hc
  obtain ⟨pre, post, hl, hin, hpre, hpost⟩ := h.last
  have hmem : ∀ msg, msg ∈ c.messages ↔
      msg ∈ allMessages ∧ inThread user.email c.id msg = true := by
    intro msg
    rw [h.msgs, List.mem_filter]
  refine ⟨?_, ?_, pre, post, hl, ?_⟩
  · rw [hmem]
    refine ⟨?_, hin⟩
    rw [hl]
    simp
  · intro msg hm
    obtain ⟨hml, hmt⟩ := (hmem msg).mp hm
    rw [hl, List.mem_append, List.mem_cons] at hml
    rcases hml with hml | hml | hml
    · exact le_of_lt (hpre msg hml hmt)
    · rw [hml]
    · exact hpost msg hml hmt
  · intro msg hm hmc
    exact hpre msg hm ((hmem msg).mp hmc).2

/-- Witness for C5: the thread `a_b` of the sample input. -/
theorem conversations_lastMessage_witness :
    sampleConvAB.lastMessage ∈ sampleConvAB.messages ∧
      (∀ msg ∈ sampleConvAB.messages,
        msg.created_date ≤ sampleConvAB.lastMessage.created_date) ∧
      ∃ pre post, sampleMessages = pre ++ sampleConvAB.lastMessage :: post ∧
        ∀ msg ∈ pre, msg ∈ sampleConvAB.messages →
          msg.created_date < sampleConvAB.lastMessage.created_date :=
  conversations_lastMessage sampleUser sampleMessages sampleConvAB (by decide)

/-- C6 (one conversation per thread): the ids of the returned conversations are pairwise
distinct; they are exactly the `conversation_id` values of the input messages that
involve the viewer; the result is empty exactly when no input message involves the
viewer; and it is empty when there is no logged-in user. -/
theorem conversations_one_per_thread (user : User) (allMessages : List Message) :
    ((conversations (some user) allMessages).map (fun c => c.id)).Nodup ∧
      (∀ k, k ∈ (conversations (some user) allMessages).map (fun c => c.id) ↔
        ∃ msg ∈ allMessages,
          (msg.sender_email = user.email ∨ msg.receiver_email = user.email) ∧
            msg.conversation_id = k) ∧
      (conversations (some user) allMessages = [] ↔
        ∀ msg ∈ allMessages,
          ¬ (msg.sender_email = user.email ∨ msg.receiver_email = user.email)) ∧
      conversations none allMessages = [] := by
  refine ⟨conversations_ids_nodup user allMessages, mem_conversations_ids user allMessages,
    ?_, rfl⟩
  constructor
  · intro hnil msg hmsg hi
    have hk := (mem_conversations_ids user allMessages msg.conversation_id).mpr
      ⟨msg, hmsg, hi, rfl⟩
    rw [hnil] at hk
    cases hk
  · intro hno
    rw [List.eq_nil_iff_forall_not_mem]
    intro c hc
    have hk : c.id ∈ (conversations (some user) allMessages).map (fun c => c.id) :=
      List.mem_map_of_mem _ hc
    obtain ⟨msg, hmsg, hi, _⟩ := (mem_conversations_ids user allMessages c.id).mp hk
    exact hno msg hmsg hi

/-! ## Properties of `currentMessages` -/

/-- C7 (currentMessages): with no selected conversation, or none found, the result is
empty; otherwise it is a permutation of the messages of the current conversation, sorted
by creation time oldest first, and stable: for every creation time, the messages with
that time come in the order they had in the conversation's `messages`. -/
theorem currentMessages_sorted_stable (convs : List Conversation)
    (selectedConversation : Option Str) :
    currentMessages convs none = [] ∧
      (currentConversation convs selectedConversation = none →
        currentMessages convs selectedConversation = []) ∧
      ∀ c, currentConversation convs selectedConversation = some c →
        (currentMessages convs selectedConversation).Perm c.messages ∧
          (currentMessages convs selectedConversation).Pairwise
            (fun a b => a.created_date ≤ b.created_date) ∧
          ∀ t : Int,
            (currentMessages convs selectedConversation).filter
                (fun msg => decide (msg.created_date = t)) =
              c.messages.filter (fun msg => decide (msg.created_date = t)) := by
  refine ⟨?_, ?_, ?_⟩
  · have hnone : currentConversation convs none = none := by
      unfold currentConversation
      rw [List.find?_eq_none]
      intro x _
      simp
    unfold currentMessages
    rw [hnone]
  · intro h
    unfold currentMessages
    rw [h]
  · intro c h
    have hcur : currentMessages convs selectedConversation =
        arraySort compareMessages c.messages := by
      unfold currentMessages
      rw [h]
    rw [hcur]
    refine ⟨arraySort_perm _ _, ?_, ?_⟩
    · have hs := arraySort_pairwise compareMessages
        (by
          intro a b
          unfold compareMessages
          omega)
        (by
          intro a b c
          unfold compareMessages
          omega)
        c.messages
      refine List.Pairwise.imp ?_ hs
      intro a b hab
      unfold compareMessages at hab
      omega
    · intro t
      apply arraySort_filter_of_equal
      intro a b ha hb
      have ha2 : a.created_date = t := of_decide_eq_true ha
      have hb2 : b.created_date = t := of_decide_eq_true hb
      unfold compareMessages
      omega

/-! ## Sample evaluations -/

theorem conversations_sample :
    (conversations (some sampleUser) sampleMessages).map
        (fun c => (c.id, c.unreadCount, c.lastMessage.id)) =
      [([97, 95, 99], 1, [3]), ([97, 95, 98], 1, [2])] := by
  decide

theorem conversationKey_sample : conversationKey [98] [97] = [97, 95, 98] := by
  decide

theorem currentMessages_sample :
    (currentMessages
        [{ sampleConvAB with messages :=
            [sampleMsg 2 true true 20, sampleMsg 1 false false 10, sampleMsg 5 true true 10] }]
        (some [97, 95, 98])).map (fun msg => msg.id) = [[1], [5], [2]] := by
  decide

/-! ## The counterpart of a conversation -/

/-- C11, as stated, fails: for a message the viewer addressed to the viewer, the
conversation's counterpart is the viewer. -/
theorem counterpart_differs_counterexample :
    ∃ c ∈ conversations (some sampleUser) [selfMessage],
      ¬ (c.otherUserEmail ≠ sampleUser.email) := by
  decide

/-- C11, amended: the counterpart of every returned conversation is the sender or the
receiver of the first of its messages, and it equals the viewer only when that message
has the viewer as both sender and receiver. -/
theorem counterpart_is_participant (user : User) (allMessages : List Message)
    (c : Conversation) (hc : c ∈ conversations (some user) allMessages) :
    ∃ first rest, c.messages = first :: rest ∧
      (c.otherUserEmail = first.sender_email ∨ c.otherUserEmail = first.receiver_email) ∧
      (c.otherUserEmail = user.email ↔
        first.sender_email = user.email ∧ first.receiver_email = user.email) := by
  have h := conversations_inv user allMessages c hc
  obtain ⟨first, rest, hmsgs, hother⟩ := h.other
  have hfirst : first ∈ c.messages := by
    rw [hmsgs]
    exact List.mem_cons_self _ _
  rw [h.msgs, List.mem_filter, inThread_iff] at hfirst
  have hinv := hfirst.2.1
  refine ⟨first, rest, hmsgs, ?_, ?_⟩
  · rw [hother]
    unfold counterpartOf
    by_cases hs : first.sender_email = user.email
    · rw [if_pos hs]
      exact Or.inr rfl
    · rw [if_neg hs]
      exact Or.inl rfl
  · rw [hother]
    unfold counterpartOf
    by_cases hs : first.sender_email = user.email
    · rw [if_pos hs]
      exact ⟨fun hr => ⟨hs, hr⟩, fun hr => hr.2⟩
    · rw [if_neg hs]
      exact ⟨fun hr => absurd hr hs, fun hr => absurd hr.1 hs⟩

/-- Witness for C11: the thread `a_b` of the sample input. -/
theorem counterpart_is_participant_witness :
    ∃ first rest, sampleConvAB.messages = first :: rest ∧
      (sampleConvAB.otherUserEmail = first.sender_email ∨
        sampleConvAB.otherUserEmail = first.receiver_email) ∧
      (sampleConvAB.otherUserEmail = sampleUser.email ↔
        first.sender_email = sampleUser.email ∧ first.receiver_email = sampleUser.email) :=
  counterpart_is_participant sampleUser sampleMessages sampleConvAB (by decide)

/-- C12, as stated, fails: in a thread whose first message comes from `b` and whose
latest message comes from `c`, the counterpart is `b`, not the other participant of the
latest message. -/
theorem counterpart_most_recent_counterexample :
    ∃ c ∈ conversations (some sampleUser) disagreeingMessages,
      c.lastMessage ∈ c.messages ∧
      (∀ msg ∈ c.messages, msg.created_date ≤ c.lastMessage.created_date) ∧
      c.otherUserEmail ≠
        (if c.lastMessage.sender_email = sampleUser.email then c.lastMessage.receiver_email
          else c.lastMessage.sender_email) := by
  decide

theorem filter_eq_cons_of_split {α : Type} (p : α → Bool) (pre post : List α) (x : α)
    (hpre : ∀ y ∈ pre, p y = false) (hx : p x = true) :
    (pre ++ x :: post).filter p = x :: post.filter p := by
  have hnil : pre.filter p = [] := by
    rw [List.filter_eq_nil_iff]
    intro y hy
    rw [hpre y hy]
    decide
  rw [List.filter_append, hnil, List.filter_cons_of_pos hx]
  rfl

/-- C12, amended: the counterpart of every returned conversation is the participant
other than the viewer (the receiver when the viewer is the sender, otherwise the sender)
of the first message of the conversation's partition in input order; when the input is
ordered newest first, that message is `lastMessage`, the most recent one. -/
theorem counterpart_from_first_message (user : User) (allMessages : List Message)
    (c : Conversation) (hc : c ∈ conversations (some user) allMessages) :
    (∃ first rest,
      allMessages.filter (fun msg =>
        (decide (msg.sender_email = user.email) || decide (msg.receiver_email = user.email)) &&
          decide (msg.conversation_id = c.id)) = first :: rest ∧
      c.otherUserEmail =
        if first.sender_email = user.email then first.receiver_email else first.sender_email) ∧
    (allMessages.Pairwise (fun a b => a.created_date ≥ b.created_date) →
      c.otherUserEmail =
        if c.lastMessage.sender_email = user.email then c.lastMessage.receiver_email
        else c.lastMessage.sender_email) := by
  have h := conversations_inv user allMessages c hc
  obtain ⟨first, rest, hmsgs, hother⟩ := h.other
  have hfil : allMessages.filter (inThread user.email c.id) = first :: rest := by
    rw [← h.msgs]
    exact hmsgs
  refine ⟨⟨first, rest, hfil, hother⟩, ?_⟩
  intro hsorted
  obtain ⟨pre, post, hl, hin, hpre, _⟩ := h.last
  have hnone : ∀ y ∈ pre, inThread user.email c.id y = false := by
    intro y hy
    by_cases hyt : inThread user.email c.id y = true
    · have hlt := hpre y hy hyt
      rw [hl, List.pairwise_append] at hsorted
      have hge := hsorted.2.2 y hy c.lastMessage (List.mem_cons_self _ _)
      omega
    · simpa using hyt
  have hsplit := filter_eq_cons_of_split (inThread user.email c.id) pre post c.lastMessage
    hnone hin
  rw [← hl, hfil] at hsplit
  have hEq : first = c.lastMessage := (List.cons.inj hsplit).1
  rw [hother, hEq]
  rfl

/-- Witness for C12: the thread `a_b` of the sample input ordered newest first. -/
theorem counterpart_from_first_message_witness :
    (∃ first rest,
      newestFirstMessages.filter (fun msg =>
        (decide (msg.sender_email = sampleUser.email) ||
            decide (msg.receiver_email = sampleUser.email)) &&
          decide (msg.conversation_id = newestFirstConv.id)) = first :: rest ∧
      newestFirstConv.otherUserEmail =
        if first.sender_email = sampleUser.email then first.receiver_email
        else first.sender_email) ∧
    (newestFirstMessages.Pairwise (fun a b => a.created_date ≥ b.created_date) →
      newestFirstConv.otherUserEmail =
        if newestFirstConv.lastMessage.sender_email = sampleUser.email then
          newestFirstConv.lastMessage.receiver_email
        else newestFirstConv.lastMessage.sender_email) :=
  counterpart_from_first_message sampleUser newestFirstMessages newestFirstConv (by decide)

/-! ## The read-reconciliation effect -/

theorem mem_unreadMessages (email : Str) (l : List Message) (msg : Message) :
    msg ∈ unreadMessages email l ↔ msg ∈ l ∧ msg.receiver_email = email ∧ msg.read = false := by
  unfold unreadMessages
  rw [List.mem_filter]
  simp

theorem currentConversation_some {convs : List Conversation} {sel : Option Str}
    {c : Conversation} (h : currentConversation convs sel = some c) :
    c ∈ convs ∧ some c.id = sel := by
  unfold currentConversation at h
  refine ⟨List.mem_of_find?_eq_some h, ?_⟩
  have hp := List.find?_some h
  exact of_decide_eq_true hp

/-- Every message of `currentMessages` is an input message of the selected thread. -/
theorem mem_renderedMessages (r : Render) (user : User) (hu : r.user = some user)
    (msg : Message) (hm : msg ∈ renderedMessages r) :
    msg ∈ r.allMessages ∧ some msg.conversation_id = r.selectedConversation := by
  unfold renderedMessages currentMessages at hm
  cases hcur : currentConversation (conversations r.user r.allMessages) r.selectedConversation with
  | none =>
    rw [hcur] at hm
    cases hm
  | some c =>
    rw [hcur] at hm
    have hm2 : msg ∈ c.messages := (mem_arraySort _ _ _).mp hm
    obtain ⟨hc, hid⟩ := currentConversation_some hcur
    rw [hu] at hc
    have hinv := conversations_inv user r.allMessages c hc
    rw [hinv.msgs, List.mem_filter, inThread_iff] at hm2
    refine ⟨hm2.1, ?_⟩
    rw [hm2.2.2]
    exact hid

/-- C13, as stated, fails: an unread message that the viewer sent to the viewer is
marked as read by the run, although the viewer sent it. -/
theorem markRead_own_message_counterexample :
    selfMessage.sender_email = sampleUser.email ∧
      selfMessage.id ∈ markReadEffect (some sampleUser) (some [97, 95, 97])
        (currentMessages (conversations (some sampleUser) [selfMessage]) (some [97, 95, 97])) := by
  decide

/-- C13, amended: with a logged-in viewer and a selected conversation, one run of the
effect issues one mark-read per element of `unreadMessages`, which is a permutation of
the messages of the selected conversation whose receiver is the viewer and whose read
flag is false; it issues none when no conversation has the selected id; and every
message marked is an input message of the selected conversation, addressed to the viewer
and unread, so none is issued for a message whose receiver is not the viewer, for a
message already read, or for a message of another conversation. -/
theorem markRead_one_run (r : Render) (user : User) (hu : r.user = some user)
    (hsel : isTruthy r.selectedConversation = true) :
    markReadEffect r.user r.selectedConversation (renderedMessages r) =
        (unreadMessages user.email (renderedMessages r)).map (fun msg => msg.id) ∧
      (∀ c, currentConversation (conversations r.user r.allMessages) r.selectedConversation =
          some c →
        (unreadMessages user.email (renderedMessages r)).Perm
          (c.messages.filter (fun msg => decide (msg.receiver_email = user.email) && !msg.read))) ∧
      (currentConversation (conversations r.user r.allMessages) r.selectedConversation = none →
        markReadEffect r.user r.selectedConversation (renderedMessages r) = []) ∧
      ∀ msg ∈ unreadMessages user.email (renderedMessages r),
        msg ∈ r.allMessages ∧ msg.receiver_email = user.email ∧ msg.read = false ∧
          some msg.conversation_id = r.selectedConversation := by
  have hrun : markReadEffect r.user r.selectedConversation (renderedMessages r) =
      (unreadMessages user.email (renderedMessages r)).map (fun msg => msg.id) := by
    unfold markReadEffect
    rw [hu]
    simp only [hsel, if_true]
  refine ⟨hrun, ?_, ?_, ?_⟩
  · intro c hc
    have hcur : renderedMessages r = arraySort compareMessages c.messages := by
      unfold renderedMessages currentMessages
      rw [hc]
    rw [hcur]
    exact (arraySort_perm _ _).filter _
  · intro hnone
    have hcur : renderedMessages r = [] := by
      unfold renderedMessages currentMessages
      rw [hnone]
    rw [hrun, hcur]
    rfl
  · intro msg hm
    obtain ⟨hml, hrecv, hread⟩ := (mem_unreadMessages _ _ _).mp hm
    obtain ⟨hall, hcid⟩ := mem_renderedMessages r user hu msg hml
    exact ⟨hall, hrecv, hread, hcid⟩

/-- Witness for C13: the sample input with thread `a_b` selected. -/
theorem markRead_one_run_witness :
    markReadEffect (some sampleUser) (some [97, 95, 98])
        (renderedMessages ⟨some sampleUser, some [97, 95, 98], sampleMessages⟩) =
      [[1]] :=
  (markRead_one_run ⟨some sampleUser, some [97, 95, 98], sampleMessages⟩ sampleUser rfl
    (by decide)).1.trans (by decide)

/-- C14, as stated, fails: message 1 is unread in two successive snapshots, the number
of messages of the selected conversation changes between them, and both runs issue a
mark-read for message 1. -/
theorem markRead_at_most_once_counterexample :
    markReadLog none staleRenders = [[1], [1]] ∧
      ¬ (markReadLog none staleRenders).count [1] ≤ 1 := by
  decide

/-- C14, amended: over any sequence of renders, every mark-read issued is for a message
that, in the snapshot of the render that issued it, is among the current messages with
the viewer as receiver and the read flag false, so a run never marks a message its
snapshot shows as read; a render whose dependency array (selected conversation, number
of current messages) equals that of the render before issues nothing; and a render whose
dependency array differs issues a mark-read for every message unread in its snapshot,
whatever was issued before. -/
theorem markReadLog_only_unread (prev : Option (Option Str × Nat)) (renders : List Render) :
    (∀ id ∈ markReadLog prev renders,
      ∃ r ∈ renders, ∃ user, r.user = some user ∧
        ∃ msg ∈ renderedMessages r,
          msg.id = id ∧ msg.receiver_email = user.email ∧ msg.read = false) ∧
      (∀ r rs, markReadLog (some (effectDeps r)) (r :: rs) =
        markReadLog (some (effectDeps r)) rs) ∧
      ∀ before r rs, before ≠ some (effectDeps r) →
        markReadLog before (r :: rs) =
          markReadEffect r.user r.selectedConversation (renderedMessages r) ++
            markReadLog (some (effectDeps r)) rs := by
  refine ⟨?_, ?_, ?_⟩
  · induction renders generalizing prev with
    | nil =>
      intro id hid
      simp [markReadLog] at hid
    | cons r rs ih =>
      intro id hid
      unfold markReadLog at hid
      rw [List.mem_append] at hid
      rcases hid with hid | hid
      · by_cases hp : prev = some (effectDeps r)
        · rw [if_pos hp] at hid
          cases hid
        · rw [if_neg hp] at hid
          unfold markReadEffect at hid
          cases hu : r.user with
          | none =>
            rw [hu] at hid
            cases hid
          | some user =>
            rw [hu] at hid
            by_cases hs : isTruthy r.selectedConversation = true
            · simp only [hs, if_true] at hid
              obtain ⟨msg, hmsg, hmid⟩ := List.mem_map.mp hid
              obtain ⟨hml, hrecv, hread⟩ := (mem_unreadMessages _ _ _).mp hmsg
              exact ⟨r, List.mem_cons_self _ _, user, hu, msg, hml, hmid, hrecv, hread⟩
            · simp only [hs] at hid
              cases hid
      · obtain ⟨r', hr', rest⟩ := ih (some (effectDeps r)) id hid
        exact ⟨r', List.mem_cons_of_mem _ hr', rest⟩
  · intro r rs
    show (if some (effectDeps r) = some (effectDeps r) then []
      else markReadEffect r.user r.selectedConversation (renderedMessages r)) ++
        markReadLog (some (effectDeps r)) rs = markReadLog (some (effectDeps r)) rs
    rw [if_pos rfl]
    rfl
  · intro before r rs hne
    show (if before = some (effectDeps r) then []
      else markReadEffect r.user r.selectedConversation (renderedMessages r)) ++
        markReadLog (some (effectDeps r)) rs = _
    rw [if_neg hne]

/-! ## The conversation search -/

theorem startsWith_iff : ∀ (s q : Str), startsWith s q = true ↔ List.IsPrefix q s
  | s, [] => by
    cases s <;> simp [startsWith]
  | [], y :: ys => by
    simp [startsWith]
  | x :: xs, y :: ys => by
    have ih := startsWith_iff xs ys
    simp only [startsWith, Bool.and_eq_true, decide_eq_true_eq, ih, List.cons_prefix_cons]
    constructor
    · rintro ⟨h1, h2⟩
      exact ⟨h1.symm, h2⟩
    · rintro ⟨h1, h2⟩
      exact ⟨h1.symm, h2⟩

/-- The model of `includes` is the substring test. -/
theorem includes_iff : ∀ (s q : Str), includes s q = true ↔ List.IsInfix q s
  | [], q => by
    simp only [includes, startsWith_iff, List.prefix_nil, List.infix_nil]
  | x :: xs, q => by
    have ih := includes_iff xs q
    simp only [includes, Bool.or_eq_true, startsWith_iff, ih, List.infix_cons_iff]

/-- The search callback on a non-empty query, in terms of substrings. -/
theorem matchesSearch_iff (toLowerCase : Str → Str) (users : List User) (searchQuery : Str)
    (hq : searchQuery ≠ []) (conv : Conversation) :
    matchesSearch toLowerCase users searchQuery conv = true ↔
      (∃ u name, users.find? (fun u => decide (u.email = conv.otherUserEmail)) = some u ∧
          u.full_name = some name ∧
          List.IsInfix (toLowerCase searchQuery) (toLowerCase name)) ∨
        List.IsInfix (toLowerCase searchQuery) (toLowerCase conv.lastMessage.message) := by
  have hne : searchQuery.isEmpty = false := by
    cases searchQuery with
    | nil => exact absurd rfl hq
    | cons _ _ => rfl
  unfold matchesSearch
  simp only [hne, Bool.false_or, Bool.or_eq_true, includes_iff]
  apply or_congr_left
  cases hfind : users.find? (fun u => decide (u.email = conv.otherUserEmail)) with
  | none => simp
  | some u =>
    cases hname : u.full_name with
    | none => simp [hname]
    | some name => simp [hname, includes_iff]

/-- C15 (matching rule of the search): for a non-empty query, `filteredConversations` is
the order-preserving sublist of the conversations kept by the callback, and the callback
keeps a conversation exactly when the lower-cased query is a substring of the lower-cased
`full_name` of the user record found for the counterpart's e-mail, or a substring of the
lower-cased body of `lastMessage`. -/
theorem filteredConversations_rule (toLowerCase : Str → Str) (convs : List Conversation)
    (users : List User) (searchQuery : Str) (hq : searchQuery ≠ []) :
    filteredConversations toLowerCase convs users searchQuery =
        convs.filter (matchesSearch toLowerCase users searchQuery) ∧
      (filteredConversations toLowerCase convs users searchQuery).Sublist convs ∧
      (∀ conv, matchesSearch toLowerCase users searchQuery conv = true ↔
        (∃ u name, users.find? (fun u => decide (u.email = conv.otherUserEmail)) = some u ∧
            u.full_name = some name ∧
            List.IsInfix (toLowerCase searchQuery) (toLowerCase name)) ∨
          List.IsInfix (toLowerCase searchQuery) (toLowerCase conv.lastMessage.message)) ∧
      ∀ conv, conv ∈ filteredConversations toLowerCase convs users searchQuery ↔
        conv ∈ convs ∧
          ((∃ u name, users.find? (fun u => decide (u.email = conv.otherUserEmail)) = some u ∧
              u.full_name = some name ∧
              List.IsInfix (toLowerCase searchQuery) (toLowerCase name)) ∨
            List.IsInfix (toLowerCase searchQuery) (toLowerCase conv.lastMessage.message)) := by
  refine ⟨rfl, List.filter_sublist _, matchesSearch_iff toLowerCase users searchQuery hq, ?_⟩
  intro conv
  unfold filteredConversations
  rw [List.mem_filter, matchesSearch_iff toLowerCase users searchQuery hq]

/-- Witness for C15: the query `BO` keeps the thread whose counterpart is named `Bob`. -/
theorem filteredConversations_rule_witness :
    filteredConversations asciiLowerCase [sampleConvAB] [sampleBob] (str "BO") =
      [sampleConvAB] :=
  (filteredConversations_rule asciiLowerCase [sampleConvAB] [sampleBob] (str "BO")
    (by decide)).1.trans (by decide)

/-- C16 (empty query): filtering with the empty query returns the conversation list
unchanged, whatever the users. -/
theorem filteredConversations_empty_query (toLowerCase : Str → Str)
    (convs : List Conversation) (users : List User) :
    filteredConversations toLowerCase convs users [] = convs := by
  unfold filteredConversations
  rw [List.filter_eq_self]
  intro conv _
  simp [matchesSearch]

/-- C17, as stated, fails: the query of a single space drops a conversation whose
counterpart name `Bob` and whose last body `hi` contain no space. -/
theorem filteredConversations_blank_counterexample :
    filteredConversations asciiLowerCase [sampleConvAB] [sampleBob] [32] ≠ [sampleConvAB] := by
  decide

/-- C17, amended: a non-empty query, blank or not, is matched as typed, without
trimming: the conversation list is returned unchanged exactly when, for every
conversation, the lower-cased query is a substring of the lower-cased name found for the
counterpart or of the lower-cased body of `lastMessage`. -/
theorem filteredConversations_unchanged_iff (toLowerCase : Str → Str)
    (convs : List Conversation) (users : List User) (searchQuery : Str)
    (hq : searchQuery ≠ []) :
    filteredConversations toLowerCase convs users searchQuery = convs ↔
      ∀ conv ∈ convs,
        (∃ u name, users.find? (fun u => decide (u.email = conv.otherUserEmail)) = some u ∧
            u.full_name = some name ∧
            List.IsInfix (toLowerCase searchQuery) (toLowerCase name)) ∨
          List.IsInfix (toLowerCase searchQuery) (toLowerCase conv.lastMessage.message) := by
  unfold filteredConversations
  rw [List.filter_eq_self]
  constructor
  · intro h conv hc
    exact (matchesSearch_iff toLowerCase users searchQuery hq conv).mp (h conv hc)
  · intro h conv hc
    exact (matchesSearch_iff toLowerCase users searchQuery hq conv).mpr (h conv hc)

/-- Witness for C17: the single space as the query, on the sample conversation. -/
theorem filteredConversations_unchanged_iff_witness :
    filteredConversations asciiLowerCase [sampleConvAB] [sampleBob] [32] = [sampleConvAB] ↔
      ∀ conv ∈ [sampleConvAB],
        (∃ u name,
            [sampleBob].find? (fun u => decide (u.email = conv.otherUserEmail)) = some u ∧
            u.full_name = some name ∧
            List.IsInfix (asciiLowerCase [32]) (asciiLowerCase name)) ∨
          List.IsInfix (asciiLowerCase [32]) (asciiLowerCase conv.lastMessage.message) :=
  filteredConversations_unchanged_iff asciiLowerCase [sampleConvAB] [sampleBob] [32]
    (by decide)

/-! ## The worked example -/

/-- C19 (worked example): for the viewer `alice@x.com` and the three messages of the
scenario with creation times `t1 < t2 < t3`, the aggregation returns exactly two
conversations: first `alice@x.com_carol@z.com` with counterpart `carol@z.com`,
`lastMessage` id 3 and `unreadCount` 1, then `alice@x.com_bob@y.com` with counterpart
`bob@y.com`, `lastMessage` id 2 and `unreadCount` 1. -/
theorem scenario_aggregate (t1 t2 t3 : Int) (h12 : t1 < t2) (h23 : t2 < t3) :
    (conversations (some alice) (scenarioMessages t1 t2 t3)).map
        (fun c => (c.id, c.otherUserEmail, c.lastMessage.id, c.unreadCount)) =
      [(str "alice@x.com_carol@z.com", str "carol@z.com", str "3", 1),
        (str "alice@x.com_bob@y.com", str "bob@y.com", str "2", 1)] := by
  have e1 : str "alice@x.com" = [97, 108, 105, 99, 101, 64, 120, 46, 99, 111, 109] := by decide
  have e2 : str "bob@y.com" = [98, 111, 98, 64, 121, 46, 99, 111, 109] := by decide
  have e3 : str "carol@z.com" = [99, 97, 114, 111, 108, 64, 122, 46, 99, 111, 109] := by decide
  have e4 : str "alice@x.com_bob@y.com" = [97, 108, 105, 99, 101, 64, 120, 46, 99, 111, 109, 95, 98, 111, 98, 64, 121, 46, 99, 111, 109] := by decide
  have e5 : str "alice@x.com_carol@z.com" = [97, 108, 105, 99, 101, 64, 120, 46, 99, 111, 109, 95, 99, 97, 114, 111, 108, 64, 122, 46, 99, 111, 109] := by decide
  have h21 : ¬ t2 ≤ t1 := by omega
  have h32 : ¬ t3 ≤ t2 := by omega
  have h23' : t2 ≤ t3 := by omega
  simp [conversations, buildConvMap, scenarioMessages, alice, aggregateStep, involvesViewer,
    JSMap.has, JSMap.get, JSMap.set, JSMap.values, touch, freshConversation, isUnreadFor,
    arraySort, compareConversations, e1, e2, e3, e4, e5, h12, h21, h32, h23', List.insertionSort, List.orderedInsert]

/-- Witness for C19: the creation times 1, 2, 3. -/
theorem scenario_aggregate_witness :
    (conversations (some alice) (scenarioMessages 1 2 3)).map
        (fun c => (c.id, c.otherUserEmail, c.lastMessage.id, c.unreadCount)) =
      [(str "alice@x.com_carol@z.com", str "carol@z.com", str "3", 1),
        (str "alice@x.com_bob@y.com", str "bob@y.com", str "2", 1)] :=
  scenario_aggregate 1 2 3 (by decide) (by decide)

/-! ## The in-place sort of `currentMessages` -/

/-- C20 fails on the code: with the newest-first sample input and thread `a_b` selected,
computing `currentMessages` sorts the `messages` array of the selected conversation in
place, so the conversation is not the same after the call: its `messages` go from
newest first to oldest first. -/
theorem currentMessages_reorders_conversation :
    newestFirstConv ∈ conversations (some sampleUser) newestFirstMessages ∧
      newestFirstConv.messages = [sampleMsg 2 true true 20, sampleMsg 1 false false 10] ∧
      (conversationsAfterSort (conversations (some sampleUser) newestFirstMessages)
          (some [97, 95, 98])).map (fun c => c.messages) =
        [[sampleMsgC 3 30], [sampleMsg 1 false false 10, sampleMsg 2 true true 20]] ∧
      conversationsAfterSort (conversations (some sampleUser) newestFirstMessages)
          (some [97, 95, 98]) ≠
        conversations (some sampleUser) newestFirstMessages := by
  decide

/-- The in-place sort leaves the id, counterpart, `lastMessage` and `unreadCount` of
every conversation as they were. -/
theorem conversationsAfterSort_frame (selectedConversation : Option Str) :
    ∀ convs : List Conversation,
      (conversationsAfterSort convs selectedConversation).map
          (fun c => (c.id, c.otherUserEmail, c.lastMessage, c.unreadCount)) =
        convs.map (fun c => (c.id, c.otherUserEmail, c.lastMessage, c.unreadCount))
  | [] => rfl
  | c :: cs => by
    unfold conversationsAfterSort
    by_cases h : some c.id = selectedConversation
    · rw [if_pos h]
      rfl
    · rw [if_neg h, List.map_cons, List.map_cons,
        conversationsAfterSort_frame selectedConversation cs]

/-- The conversations are ordered by the creation time of `lastMessage`, latest first. -/
theorem conversations_sorted_aux (user : User) (l : List Message) :
    (conversations (some user) l).Pairwise
      (fun a b => a.lastMessage.created_date ≥ b.lastMessage.created_date) := by
  have h := arraySort_pairwise compareConversations
    (by
      intro a b
      unfold compareConversations
      omega)
    (by
      intro a b c
      unfold compareConversations
      omega)
    (JSMap.values (buildConvMap user.email l))
  refine List.Pairwise.imp ?_ h
  intro a b hab
  unfold compareConversations at hab
  omega

/-! ## Independence of the order of the input -/

theorem ConvInv.lastMessage_mem {email : Str} {l : List Message} {k : Str} {c : Conversation}
    (h : ConvInv email l k c) : c.lastMessage ∈ l ∧ inThread email k c.lastMessage = true := by
  obtain ⟨pre, post, hl, hin, _, _⟩ := h.last
  refine ⟨?_, hin⟩
  rw [hl]
  simp

theorem ConvInv.le_lastMessage {email : Str} {l : List Message} {k : Str} {c : Conversation}
    (h : ConvInv email l k c) (x : Message) (hx : x ∈ l) (hxt : inThread email k x = true) :
    x.created_date ≤ c.lastMessage.created_date := by
  obtain ⟨pre, post, hl, _, hpre, hpost⟩ := h.last
  rw [hl, List.mem_append, List.mem_cons] at hx
  rcases hx with hx | hx | hx
  · exact le_of_lt (hpre x hx hxt)
  · rw [hx]
  · exact hpost x hx hxt

theorem ConvInv.first_mem {email : Str} {l : List Message} {k : Str} {c : Conversation}
    (h : ConvInv email l k c) :
    ∃ first, first ∈ l ∧ inThread email k first = true ∧
      c.otherUserEmail = counterpartOf email first := by
  obtain ⟨first, rest, hmsgs, hother⟩ := h.other
  have hfirst : first ∈ c.messages := by
    rw [hmsgs]
    exact List.mem_cons_self _ _
  rw [h.msgs, List.mem_filter] at hfirst
  exact ⟨first, hfirst.1, hfirst.2, hother⟩

/-- Two messages of one two-party thread that both involve the viewer name the same
counterpart. -/
theorem counterpartOf_eq_of_same_pair (email : Str) (x y : Message)
    (hx : x.sender_email = email ∨ x.receiver_email = email)
    (hxd : x.sender_email ≠ x.receiver_email)
    (hpair : (x.sender_email = y.sender_email ∧ x.receiver_email = y.receiver_email) ∨
      (x.sender_email = y.receiver_email ∧ x.receiver_email = y.sender_email)) :
    counterpartOf email x = counterpartOf email y := by
  unfold counterpartOf
  rcases hpair with ⟨hs, hr⟩ | ⟨hs, hr⟩
  · rw [hs, hr]
  · by_cases hxs : x.sender_email = email
    · have hys : ¬ y.sender_email = email := by
        intro hys
        apply hxd
        rw [hxs, hr, hys]
      rw [if_pos hxs, if_neg hys, hr]
    · have hxr : x.receiver_email = email := by
        rcases hx with hx | hx
        · exact absurd hx hxs
        · exact hx
      have hys : y.sender_email = email := by
        rw [← hr]
        exact hxr
      rw [if_neg hxs, if_pos hys, hs]

/-- With pairwise distinct creation times, sorting by creation time gives the same list
for every order of the input. -/
theorem arraySort_compareMessages_perm (m1 m2 : List Message) (hperm : m1.Perm m2)
    (htimes : (m1.map (fun msg => msg.created_date)).Nodup) :
    arraySort compareMessages m1 = arraySort compareMessages m2 := by
  have hstrict : ∀ m : List Message, m.Perm m1 →
      (arraySort compareMessages m).Pairwise (fun a b => a.created_date < b.created_date) := by
    intro m hm
    have hle := arraySort_pairwise compareMessages
      (by
        intro a b
        unfold compareMessages
        omega)
      (by
        intro a b c
        unfold compareMessages
        omega)
      m
    have hnd : ((arraySort compareMessages m).map (fun msg => msg.created_date)).Nodup :=
      ((((arraySort_perm compareMessages m).trans hm).map _).nodup_iff).mpr htimes
    have hne : (arraySort compareMessages m).Pairwise
        (fun a b => a.created_date ≠ b.created_date) := List.pairwise_map.mp hnd
    refine List.Pairwise.imp₂ ?_ hle hne
    intro a b hab hne
    unfold compareMessages at hab
    omega
  haveI : IsAntisymm Message (fun a b => a.created_date < b.created_date) :=
    ⟨fun a b hab hba => absurd hab (not_lt_of_gt hba)⟩
  have hp : (arraySort compareMessages m1).Perm (arraySort compareMessages m2) :=
    ((arraySort_perm compareMessages m1).trans hperm).trans (arraySort_perm compareMessages m2).symm
  exact List.eq_of_perm_of_sorted hp (hstrict m1 (List.Perm.refl _)) (hstrict m2 hperm.symm)

/-- With pairwise distinct creation times, the conversations come strictly ordered by
the creation time of `lastMessage`. -/
theorem conversations_strictly_sorted (user : User) (l : List Message)
    (htimes : (l.map (fun msg => msg.created_date)).Nodup) :
    (conversations (some user) l).Pairwise
      (fun a b => a.lastMessage.created_date > b.lastMessage.created_date) := by
  have hge := conversations_sorted_aux user l
  have hids : (conversations (some user) l).Pairwise (fun a b => a.id ≠ b.id) :=
    List.pairwise_map.mp (conversations_ids_nodup user l)
  have hboth := hge.and hids
  refine List.Pairwise.imp_of_mem ?_ hboth
  intro a b ha hb hab
  have hia := conversations_inv user l a ha
  have hib := conversations_inv user l b hb
  have hne : a.lastMessage.created_date ≠ b.lastMessage.created_date := by
    intro heq
    have hsame : a.lastMessage = b.lastMessage :=
      List.inj_on_of_nodup_map htimes hia.lastMessage_mem.1 hib.lastMessage_mem.1 heq
    have h1 := ((inThread_iff _ _ _).mp hia.lastMessage_mem.2).2
    have h2 := ((inThread_iff _ _ _).mp hib.lastMessage_mem.2).2
    apply hab.2
    rw [← h1, ← h2, hsame]
  have := hab.1
  omega

/-- Conversations of the same thread built from two orders of the same input agree on
what the chat UI reads. -/
theorem summary_eq_of_perm (user : User) (l1 l2 : List Message) (hperm : l1.Perm l2)
    (htimes : (l1.map (fun msg => msg.created_date)).Nodup)
    (hdistinct : ∀ x ∈ l1, x.sender_email ≠ x.receiver_email)
    (hpair : ∀ x ∈ l1, ∀ y ∈ l1, x.conversation_id = y.conversation_id →
      (x.sender_email = y.sender_email ∧ x.receiver_email = y.receiver_email) ∨
        (x.sender_email = y.receiver_email ∧ x.receiver_email = y.sender_email))
    (c1 c2 : Conversation) (h1 : c1 ∈ conversations (some user) l1)
    (h2 : c2 ∈ conversations (some user) l2) (hid : c1.id = c2.id) :
    summary c1 = summary c2 := by
  have i1 := conversations_inv user l1 c1 h1
  have i2 := conversations_inv user l2 c2 h2
  rw [← hid] at i2
  have hmsgs : c1.messages.Perm c2.messages := by
    rw [i1.msgs, i2.msgs]
    exact hperm.filter _
  have hunread : c1.unreadCount = c2.unreadCount := by
    rw [i1.unread, i2.unread]
    exact hmsgs.countP_eq _
  have hlast : c1.lastMessage = c2.lastMessage := by
    have m1 := i1.lastMessage_mem
    have m2 := i2.lastMessage_mem
    have m2' : c2.lastMessage ∈ l1 := hperm.mem_iff.mpr m2.1
    have m1' : c1.lastMessage ∈ l2 := hperm.mem_iff.mp m1.1
    have le1 := i2.le_lastMessage c1.lastMessage m1' m1.2
    have le2 := i1.le_lastMessage c2.lastMessage m2' m2.2
    exact List.inj_on_of_nodup_map htimes m1.1 m2' (le_antisymm le1 le2)
  have hother : c1.otherUserEmail = c2.otherUserEmail := by
    obtain ⟨f1, hf1, ht1, ho1⟩ := i1.first_mem
    obtain ⟨f2, hf2, ht2, ho2⟩ := i2.first_mem
    have hf2' : f2 ∈ l1 := hperm.mem_iff.mpr hf2
    rw [inThread_iff] at ht1 ht2
    rw [ho1, ho2]
    refine counterpartOf_eq_of_same_pair user.email f1 f2 ht1.1 (hdistinct f1 hf1) ?_
    apply hpair f1 hf1 f2 hf2'
    rw [ht1.2, ht2.2]
  have hsorted : arraySort compareMessages c1.messages =
      arraySort compareMessages c2.messages := by
    apply arraySort_compareMessages_perm _ _ hmsgs
    rw [i1.msgs]
    exact List.Nodup.sublist ((List.filter_sublist l1).map _) htimes
  unfold summary
  rw [hid, hother, hlast, hunread, hsorted]

/-- Equal summaries give equal `currentMessages` for every selection. -/
theorem currentMessages_eq_of_summary :
    ∀ (convs1 convs2 : List Conversation), convs1.map summary = convs2.map summary →
      ∀ sel, currentMessages convs1 sel = currentMessages convs2 sel
  | [], [], _, _ => rfl
  | [], _ :: _, h, _ => by simp at h
  | _ :: _, [], h, _ => by simp at h
  | c1 :: cs1, c2 :: cs2, h, sel => by
    rw [List.map_cons, List.map_cons, List.cons.injEq] at h
    have ih := currentMessages_eq_of_summary cs1 cs2 h.2 sel
    have hsum := h.1
    unfold summary at hsum
    have hid : c1.id = c2.id := (Prod.mk.inj hsum).1
    have hsorted : arraySort compareMessages c1.messages =
        arraySort compareMessages c2.messages :=
      (Prod.mk.inj (Prod.mk.inj (Prod.mk.inj (Prod.mk.inj hsum).2).2).2).2
    unfold currentMessages currentConversation at ih ⊢
    by_cases hsel : some c1.id = sel
    · have hsel2 : some c2.id = sel := by
        rw [← hid]
        exact hsel
      simp only [List.find?_cons, hsel, hsel2, decide_True]
      exact hsorted
    · have hsel2 : ¬ some c2.id = sel := by
        rw [← hid]
        exact hsel
      simp only [List.find?_cons, hsel, hsel2, decide_False]
      exact ih

/-- C18 (out-of-order tolerance): for two inputs that are permutations of each other,
with pairwise distinct creation times and with every `conversation_id` naming one
unordered pair of two distinct identities, the aggregation for the same viewer returns
the same sequence of conversations as far as id, counterpart, `lastMessage`,
`unreadCount` and ordered messages go, and `currentMessages` is the same for every
selected conversation. -/
theorem conversations_order_independent (user : User) (l1 l2 : List Message)
    (hperm : l1.Perm l2)
    (htimes : (l1.map (fun msg => msg.created_date)).Nodup)
    (hdistinct : ∀ x ∈ l1, x.sender_email ≠ x.receiver_email)
    (hpair : ∀ x ∈ l1, ∀ y ∈ l1, x.conversation_id = y.conversation_id →
      (x.sender_email = y.sender_email ∧ x.receiver_email = y.receiver_email) ∨
        (x.sender_email = y.receiver_email ∧ x.receiver_email = y.sender_email)) :
    (conversations (some user) l1).map summary = (conversations (some user) l2).map summary ∧
      ∀ sel, currentMessages (conversations (some user) l1) sel =
        currentMessages (conversations (some user) l2) sel := by
  have htimes2 : (l2.map (fun msg => msg.created_date)).Nodup :=
    ((hperm.map _).nodup_iff).mp htimes
  have hagree := summary_eq_of_perm user l1 l2 hperm htimes hdistinct hpair
  have hids : ∀ k, k ∈ (conversations (some user) l1).map (fun c => c.id) ↔
      k ∈ (conversations (some user) l2).map (fun c => c.id) := by
    intro k
    rw [mem_conversations_ids, mem_conversations_ids]
    constructor
    · rintro ⟨x, hx, rest⟩
      exact ⟨x, hperm.mem_iff.mp hx, rest⟩
    · rintro ⟨x, hx, rest⟩
      exact ⟨x, hperm.mem_iff.mpr hx, rest⟩
  have hnodup : ∀ l, ((conversations (some user) l).map summary).Nodup := by
    intro l
    apply List.Nodup.of_map (fun s => s.1)
    rw [List.map_map]
    exact conversations_ids_nodup user l
  have hmem : ∀ s, s ∈ (conversations (some user) l1).map summary ↔
      s ∈ (conversations (some user) l2).map summary := by
    intro s
    constructor
    · intro hs
      obtain ⟨c1, hc1, hs1⟩ := List.mem_map.mp hs
      obtain ⟨c2, hc2, hid2⟩ := List.mem_map.mp
        ((hids c1.id).mp (List.mem_map_of_mem (fun c => c.id) hc1))
      rw [← hs1, hagree c1 c2 hc1 hc2 hid2.symm]
      exact List.mem_map_of_mem summary hc2
    · intro hs
      obtain ⟨c2, hc2, hs2⟩ := List.mem_map.mp hs
      obtain ⟨c1, hc1, hid1⟩ := List.mem_map.mp
        ((hids c2.id).mpr (List.mem_map_of_mem (fun c => c.id) hc2))
      rw [← hs2, ← hagree c1 c2 hc1 hc2 hid1]
      exact List.mem_map_of_mem summary hc1
  have hp : ((conversations (some user) l1).map summary).Perm
      ((conversations (some user) l2).map summary) :=
    (List.perm_ext_iff_of_nodup (hnodup l1) (hnodup l2)).mpr hmem
  have hsorted : ∀ l, (l.map (fun msg => msg.created_date)).Nodup →
      ((conversations (some user) l).map summary).Pairwise
        (fun s t => s.2.2.1.created_date > t.2.2.1.created_date) := by
    intro l hl
    rw [List.pairwise_map]
    exact conversations_strictly_sorted user l hl
  haveI : IsAntisymm (Str × Str × Message × Nat × List Message)
      (fun s t => s.2.2.1.created_date > t.2.2.1.created_date) :=
    ⟨fun a b hab hba => absurd hab (not_lt_of_gt hba)⟩
  have heq := List.eq_of_perm_of_sorted hp (hsorted l1 htimes) (hsorted l2 htimes2)
  exact ⟨heq, currentMessages_eq_of_summary _ _ heq⟩

/-- Witness for C18: the sample input and its reverse. -/
theorem conversations_order_independent_witness :
    (conversations (some sampleUser) sampleMessages).map summary =
        (conversations (some sampleUser) sampleMessages.reverse).map summary ∧
      ∀ sel, currentMessages (conversations (some sampleUser) sampleMessages) sel =
        currentMessages (conversations (some sampleUser) sampleMessages.reverse) sel :=
  conversations_order_independent sampleUser sampleMessages sampleMessages.reverse
    (List.reverse_perm sampleMessages).symm (by decide) (by decide) (by decide)

/-! ## Key collisions -/

/-- C29 (key collisions): there are identities, containing the delimiter `_`, whose
unordered pairs differ and whose conversation keys are equal: the pairs `a_b`, `c` and
`a`, `b_c` both give the key `a_b_c`. -/
theorem conversationKey_collision :
    ∃ a b c d : Str,
      underscore ∈ a ∧ underscore ∈ d ∧
      ¬ ((a = c ∧ b = d) ∨ (a = d ∧ b = c)) ∧
      conversationKey a b = conversationKey c d ∧
      conversationKey a b = str "a_b_c" :=
  ⟨str "a_b", str "c", str "a", str "b_c", by decide, by decide, by decide, by decide,
    by decide⟩

/-! ## Unread totals -/

theorem conversations_flatMap_perm (user : User) (l : List Message) :
    ((conversations (some user) l).flatMap (fun c => c.messages)).Perm
      (l.filter (involvesViewer user.email)) := by
  refine ((conversations_perm_values user l).flatMap_right _).trans ?_
  rw [List.flatMap_map]
  exact (buildConvMap_inv user.email l).perm

/-- C28 (unread totals agree): the sum of `unreadCount` over the returned conversations
is the number of input messages whose receiver is the viewer and whose read flag is
false, which is the number the layout computes for its badge from the same messages. -/
theorem conversations_unread_total (user : User) (allMessages : List Message) :
    ((conversations (some user) allMessages).map (fun c => c.unreadCount)).sum =
        (allMessages.filter
          (fun msg => decide (msg.receiver_email = user.email) && !msg.read)).length ∧
      ((conversations (some user) allMessages).map (fun c => c.unreadCount)).sum =
        layoutUnreadCount user.email allMessages := by
  have hsum : ((conversations (some user) allMessages).map (fun c => c.unreadCount)).sum =
      allMessages.countP (isUnreadFor user.email) := by
    have hmap : (conversations (some user) allMessages).map (fun c => c.unreadCount) =
        (conversations (some user) allMessages).map
          (List.countP (isUnreadFor user.email) ∘ fun c => c.messages) := by
      apply List.map_congr_left
      intro c hc
      exact (conversations_inv user allMessages c hc).unread
    rw [hmap, ← List.countP_flatMap, (conversations_flatMap_perm user allMessages).countP_eq,
      List.countP_filter]
    apply List.countP_congr
    intro x _
    simp only [isUnreadFor, involvesViewer, Bool.and_eq_true, Bool.or_eq_true,
      decide_eq_true_eq]
    constructor
    · intro h
      exact h.1
    · intro h
      exact ⟨h, Or.inr h.1⟩
  constructor
  · rw [hsum, List.countP_eq_length_filter]
    rfl
  · rw [hsum, List.countP_eq_length_filter]
    unfold layoutUnreadCount
    congr 1
    apply List.filter_congr
    intro x _
    unfold isUnreadFor
    cases x.read <;> simp

/-! ## The top contributors -/

/-- C30 (top contributors): the list has exactly `min 5 n` entries, where `n` is the
number of users with `items_donated > 0`, hence at most 5; every entry is one of the
users and has `items_donated > 0`; the entries are in non-increasing order of
`items_donated`; and every user with `items_donated > 0` that is not listed has at most
the `items_donated` of every listed entry. -/
theorem topContributors_spec (users : List Contributor) :
    (topContributors users).length =
        min 5 (users.filter (fun u => decide (u.items_donated > 0))).length ∧
      (topContributors users).length ≤ 5 ∧
      (∀ u ∈ topContributors users, u ∈ users ∧ u.items_donated > 0) ∧
      (topContributors users).Pairwise (fun a b => a.items_donated ≥ b.items_donated) ∧
      ∀ u ∈ users, u.items_donated > 0 → u ∉ topContributors users →
        ∀ v ∈ topContributors users, u.items_donated ≤ v.items_donated := by
  have hperm := arraySort_perm compareContributors
    (users.filter (fun u => decide (u.items_donated > 0)))
  have hsorted : (arraySort compareContributors
      (users.filter (fun u => decide (u.items_donated > 0)))).Pairwise
        (fun a b => a.items_donated ≥ b.items_donated) := by
    have h := arraySort_pairwise compareContributors
      (by
        intro a b
        unfold compareContributors
        omega)
      (by
        intro a b c
        unfold compareContributors
        omega)
      (users.filter (fun u => decide (u.items_donated > 0)))
    refine List.Pairwise.imp ?_ h
    intro a b hab
    unfold compareContributors at hab
    omega
  have hlen : (topContributors users).length =
      min 5 (users.filter (fun u => decide (u.items_donated > 0))).length := by
    unfold topContributors
    rw [List.length_take, hperm.length_eq]
  refine ⟨hlen, ?_, ?_, ?_, ?_⟩
  · rw [hlen]
    exact min_le_left _ _
  · intro u hu
    have hmem := hperm.mem_iff.mp (List.mem_of_mem_take hu)
    rw [List.mem_filter] at hmem
    exact ⟨hmem.1, of_decide_eq_true hmem.2⟩
  · exact hsorted.sublist (List.take_sublist _ _)
  · intro u hu hpos hnot v hv
    have hmem : u ∈ arraySort compareContributors
        (users.filter (fun u => decide (u.items_donated > 0))) := by
      rw [hperm.mem_iff, List.mem_filter]
      exact ⟨hu, decide_eq_true hpos⟩
    rw [← List.take_append_drop 5 (arraySort compareContributors
      (users.filter (fun u => decide (u.items_donated > 0))))] at hmem hsorted
    rw [List.mem_append] at hmem
    rcases hmem with hmem | hmem
    · exact absurd hmem hnot
    · exact (List.pairwise_append.mp hsorted).2.2 v hv u hmem

/-! ## Sending a message -/

theorem trim_nil : trim [] = [] := rfl

theorem isTruthy_some_iff (s : Str) : isTruthy (some s) = true ↔ s ≠ [] := by
  cases s <;> simp [isTruthy]

theorem currentConversation_eq_none_iff (convs : List Conversation) (sel : Option Str) :
    currentConversation convs sel = none ↔ ∀ c ∈ convs, some c.id ≠ sel := by
  unfold currentConversation
  rw [List.find?_eq_none]
  simp

/-- The three outcomes of `handleSendMessage`, by cases. -/
theorem handleSendMessage_cases (user : User) (convs : List Conversation)
    (sel itemIdParam : Option Str) (text : Str) :
    ((trim text = [] ∨ isTruthy sel = false) ∧
        handleSendMessage user convs sel itemIdParam text = SendOutcome.returned) ∨
      (trim text ≠ [] ∧ isTruthy sel = true ∧ currentConversation convs sel = none ∧
        handleSendMessage user convs sel itemIdParam text = SendOutcome.typeError) ∨
      (trim text ≠ [] ∧ isTruthy sel = true ∧
        ∃ c, currentConversation convs sel = some c ∧
          handleSendMessage user convs sel itemIdParam text =
            SendOutcome.mutate
              { conversation_id := sel
                sender_email := user.email
                receiver_email := c.otherUserEmail
                message := text
                item_id := if isTruthy itemIdParam then itemIdParam else none }) := by
  unfold handleSendMessage
  by_cases ht : trim text = []
  · left
    simp [ht]
  · by_cases hs : isTruthy sel = true
    · right
      have hne : (trim text).isEmpty = false := by
        cases htt : trim text with
        | nil => exact absurd htt ht
        | cons _ _ => rfl
      cases hc : currentConversation convs sel with
      | none =>
        left
        simp [hne, hs, ht]
      | some c =>
        right
        refine ⟨ht, hs, c, rfl, ?_⟩
        simp [hne, hs]
    · left
      have hs2 : isTruthy sel = false := by simpa using hs
      simp [hs2]

/-- C22 (no empty messages are sent): `handleSendMessage` hands a message to the create
mutation only when the composer text is not blank and a conversation is selected, and
the body handed over is the text, which is not empty; for a blank text or no selected
conversation the handler returns without a mutation and the submission leaves the state
as it was. -/
theorem handleSendMessage_nonblank (user : User) (convs : List Conversation)
    (itemIdParam : Option Str) (s : ComposerState) (createSucceeds : Bool) :
    (∀ d, handleSendMessage user convs s.selectedConversation itemIdParam s.messageText =
        SendOutcome.mutate d →
      trim s.messageText ≠ [] ∧ isTruthy s.selectedConversation = true ∧
        d.message = s.messageText ∧ d.message ≠ []) ∧
      (trim s.messageText = [] ∨ isTruthy s.selectedConversation = false →
        handleSendMessage user convs s.selectedConversation itemIdParam s.messageText =
            SendOutcome.returned ∧
          submitMessage user convs itemIdParam s createSucceeds = (SendOutcome.returned, s)) := by
  constructor
  · intro d hd
    rcases handleSendMessage_cases user convs s.selectedConversation itemIdParam s.messageText
      with ⟨_, h⟩ | ⟨_, _, _, h⟩ | ⟨ht, hs, c, _, h⟩
    · rw [h] at hd
      cases hd
    · rw [h] at hd
      cases hd
    · rw [h] at hd
      have hd2 := SendOutcome.mutate.inj hd
      have hmsg : d.message = s.messageText := by rw [← hd2]
      refine ⟨ht, hs, hmsg, ?_⟩
      rw [hmsg]
      intro hnil
      apply ht
      rw [hnil]
      rfl
  · intro hblank
    have hret : handleSendMessage user convs s.selectedConversation itemIdParam s.messageText =
        SendOutcome.returned := by
      rcases handleSendMessage_cases user convs s.selectedConversation itemIdParam s.messageText
        with ⟨_, h⟩ | ⟨ht, hs, _, _⟩ | ⟨ht, hs, _, _, _⟩
      · exact h
      · rcases hblank with hb | hb
        · exact absurd hb ht
        · rw [hs] at hb
          cases hb
      · rcases hblank with hb | hb
        · exact absurd hb ht
        · rw [hs] at hb
          cases hb
    refine ⟨hret, ?_⟩
    unfold submitMessage
    rw [hret]

/-- C23 (a failed send keeps the draft): when the create fails the submission leaves the
state, the composer text included, as it was; the composer text changes only when the
handler handed a message to the mutation and the create succeeded, and it is then
empty; and a successful create does reset it. -/
theorem submitMessage_keeps_draft (user : User) (convs : List Conversation)
    (itemIdParam : Option Str) (s : ComposerState) :
    (submitMessage user convs itemIdParam s false).2 = s ∧
      (∀ createSucceeds,
        (submitMessage user convs itemIdParam s createSucceeds).2.messageText ≠ s.messageText →
          createSucceeds = true ∧
            (∃ d, (submitMessage user convs itemIdParam s createSucceeds).1 =
              SendOutcome.mutate d) ∧
            (submitMessage user convs itemIdParam s createSucceeds).2.messageText = []) ∧
      ∀ d, handleSendMessage user convs s.selectedConversation itemIdParam s.messageText =
          SendOutcome.mutate d →
        (submitMessage user convs itemIdParam s true).2.messageText = [] := by
  refine ⟨?_, ?_, ?_⟩
  · unfold submitMessage
    cases handleSendMessage user convs s.selectedConversation itemIdParam s.messageText <;> rfl
  · intro ok hne
    unfold submitMessage at hne ⊢
    cases hh : handleSendMessage user convs s.selectedConversation itemIdParam s.messageText with
    | returned =>
      rw [hh] at hne
      exact absurd rfl hne
    | typeError =>
      rw [hh] at hne
      exact absurd rfl hne
    | mutate d =>
      rw [hh] at hne
      cases ok with
      | false => exact absurd rfl hne
      | true => exact ⟨rfl, ⟨d, rfl⟩, rfl⟩
  · intro d hd
    unfold submitMessage
    rw [hd]
    rfl

/-- C26 (the handler fails exactly on a thread without messages): for a logged-in
viewer, `handleSendMessage` throws if and only if the text is not blank, a conversation
id is selected and no conversation of the viewer's aggregate has that id; this is so for
the key that the item page computes, when no message of the viewer carries it yet; and a
call that throws hands no message to the create mutation. -/
theorem handleSendMessage_typeError_iff (user : User) (allMessages : List Message)
    (sel itemIdParam : Option Str) (text : Str) :
    (handleSendMessage user (conversations (some user) allMessages) sel itemIdParam text =
        SendOutcome.typeError ↔
      trim text ≠ [] ∧ isTruthy sel = true ∧
        ∀ c ∈ conversations (some user) allMessages, some c.id ≠ sel) ∧
      (∀ donor, trim text ≠ [] →
        (∀ msg ∈ allMessages,
          msg.sender_email = user.email ∨ msg.receiver_email = user.email →
            msg.conversation_id ≠ conversationKey user.email donor) →
        handleSendMessage user (conversations (some user) allMessages)
          (some (conversationKey user.email donor)) itemIdParam text =
            SendOutcome.typeError) ∧
      ∀ d, handleSendMessage user (conversations (some user) allMessages) sel itemIdParam text =
          SendOutcome.typeError →
        handleSendMessage user (conversations (some user) allMessages) sel itemIdParam text ≠
          SendOutcome.mutate d := by
  have hiff : ∀ sel', handleSendMessage user (conversations (some user) allMessages) sel'
        itemIdParam text = SendOutcome.typeError ↔
      trim text ≠ [] ∧ isTruthy sel' = true ∧
        ∀ c ∈ conversations (some user) allMessages, some c.id ≠ sel' := by
    intro sel'
    rw [← currentConversation_eq_none_iff]
    rcases handleSendMessage_cases user (conversations (some user) allMessages) sel'
      itemIdParam text with ⟨hb, h⟩ | ⟨ht, hs, hc, h⟩ | ⟨ht, hs, c, hc, h⟩
    · rw [h]
      constructor
      · intro hh
        cases hh
      · rintro ⟨ht, hs, _⟩
        rcases hb with hb | hb
        · exact absurd hb ht
        · rw [hs] at hb
          cases hb
    · rw [h]
      exact ⟨fun _ => ⟨ht, hs, hc⟩, fun _ => rfl⟩
    · rw [h]
      constructor
      · intro hh
        cases hh
      · rintro ⟨_, _, hnone⟩
        rw [hnone] at hc
        cases hc
  refine ⟨hiff sel, ?_, ?_⟩
  · intro donor ht hno
    rw [hiff]
    refine ⟨ht, ?_, ?_⟩
    · rw [isTruthy_some_iff, conversationKey_eq]
      split_ifs <;> simp
    · intro c hc hid
      have hk : c.id ∈ (conversations (some user) allMessages).map (fun c => c.id) :=
        List.mem_map_of_mem (fun c => c.id) hc
      obtain ⟨msg, hmsg, hinv, hcid⟩ := (mem_conversations_ids user allMessages c.id).mp hk
      apply hno msg hmsg hinv
      rw [hcid]
      exact Option.some.inj hid
  · intro d h1 h2
    rw [h1] at h2
    cases h2

/-- C27 (sending preserves the two-party invariant): when `handleSendMessage` hands a
message to the create mutation, there is a conversation `c` of the aggregate, the
selected one, such that the message has `conversation_id = c.id`, the viewer as sender,
the counterpart of `c` as receiver, the composer text as typed as body and the `item`
parameter or null as `item_id`; and if every message of `c` names the pair of the viewer
and one identity `x` other than the viewer, so does the created record, and so does every
message of that thread in the aggregate of the input extended by the created record. -/
theorem handleSendMessage_payload (user : User) (allMessages : List Message)
    (sel itemIdParam : Option Str) (text : Str) (d : MessageData)
    (h : handleSendMessage user (conversations (some user) allMessages) sel itemIdParam text =
      SendOutcome.mutate d) :
    ∃ c ∈ conversations (some user) allMessages,
      sel = some c.id ∧ d.conversation_id = some c.id ∧ d.sender_email = user.email ∧
      d.receiver_email = c.otherUserEmail ∧ d.message = text ∧
      d.item_id = (if isTruthy itemIdParam then itemIdParam else none) ∧
      ∀ x, x ≠ user.email → (∀ msg ∈ c.messages, hasPair user.email x msg) →
        ∀ id createdAt,
          hasPair user.email x (createdRecord d id createdAt) ∧
          (createdRecord d id createdAt).conversation_id = c.id ∧
          ∀ c2 ∈ conversations (some user) (allMessages ++ [createdRecord d id createdAt]),
            c2.id = c.id →
              c2.messages = c.messages ++ [createdRecord d id createdAt] ∧
                ∀ msg ∈ c2.messages, hasPair user.email x msg := by
  rcases handleSendMessage_cases user (conversations (some user) allMessages) sel
    itemIdParam text with ⟨_, h2⟩ | ⟨_, _, _, h2⟩ | ⟨_, _, c, hc, h2⟩
  · rw [h2] at h
    cases h
  · rw [h2] at h
    cases h
  · rw [h2] at h
    have hd := SendOutcome.mutate.inj h
    obtain ⟨hmem, hid⟩ := currentConversation_some hc
    have hinv := conversations_inv user allMessages c hmem
    refine ⟨c, hmem, hid.symm, ?_, ?_, ?_, ?_, ?_, ?_⟩
    · rw [← hd]
      exact hid.symm
    · rw [← hd]
    · rw [← hd]
    · rw [← hd]
    · rw [← hd]
    · intro x hx hall id createdAt
      have hother : c.otherUserEmail = x := by
        obtain ⟨first, rest, hmsgs, ho⟩ := hinv.other
        have hf := hall first (by rw [hmsgs]; exact List.mem_cons_self _ _)
        rw [ho]
        unfold counterpartOf
        rcases hf with ⟨hs, hr⟩ | ⟨hs, hr⟩
        · rw [if_pos hs, hr]
        · have hne : ¬ first.sender_email = user.email := by
            rw [hs]
            exact hx
          rw [if_neg hne, hs]
      have hrec : hasPair user.email x (createdRecord d id createdAt) := by
        left
        rw [← hd]
        exact ⟨rfl, hother⟩
      have hcid : (createdRecord d id createdAt).conversation_id = c.id := by
        rw [← hd, ← hid]
        rfl
      refine ⟨hrec, hcid, ?_⟩
      intro c2 hc2 hid2
      have hinv2 := conversations_inv user (allMessages ++ [createdRecord d id createdAt]) c2 hc2
      have hthread : inThread user.email c.id (createdRecord d id createdAt) = true := by
        rw [inThread_iff]
        refine ⟨Or.inl ?_, hcid⟩
        rw [← hd]
        rfl
      have hmsgs2 : c2.messages = c.messages ++ [createdRecord d id createdAt] := by
        rw [hinv2.msgs, hid2, List.filter_append, hinv.msgs]
        simp [hthread]
      refine ⟨hmsgs2, ?_⟩
      intro msg hmsg
      rw [hmsgs2, List.mem_append, List.mem_singleton] at hmsg
      rcases hmsg with hmsg | hmsg
      · exact hall msg hmsg
      · rw [hmsg]
        exact hrec

/-- Witness for C27: the viewer `a` answers in thread `a_b` of the sample input. -/
theorem handleSendMessage_payload_witness :
    ∃ c ∈ conversations (some sampleUser) sampleMessages,
      some [97, 95, 98] = some c.id ∧
      (⟨some [97, 95, 98], [97], [98], str "ok", none⟩ : MessageData).conversation_id =
        some c.id ∧
      (⟨some [97, 95, 98], [97], [98], str "ok", none⟩ : MessageData).sender_email =
        sampleUser.email ∧
      (⟨some [97, 95, 98], [97], [98], str "ok", none⟩ : MessageData).receiver_email =
        c.otherUserEmail ∧
      (⟨some [97, 95, 98], [97], [98], str "ok", none⟩ : MessageData).message = str "ok" ∧
      (⟨some [97, 95, 98], [97], [98], str "ok", none⟩ : MessageData).item_id =
        (if isTruthy none then none else none) ∧
      ∀ x, x ≠ sampleUser.email → (∀ msg ∈ c.messages, hasPair sampleUser.email x msg) →
        ∀ id createdAt,
          hasPair sampleUser.email x
            (createdRecord ⟨some [97, 95, 98], [97], [98], str "ok", none⟩ id createdAt) ∧
          (createdRecord ⟨some [97, 95, 98], [97], [98], str "ok", none⟩ id
            createdAt).conversation_id = c.id ∧
          ∀ c2 ∈ conversations (some sampleUser)
              (sampleMessages ++
                [createdRecord ⟨some [97, 95, 98], [97], [98], str "ok", none⟩ id createdAt]),
            c2.id = c.id →
              c2.messages = c.messages ++
                  [createdRecord ⟨some [97, 95, 98], [97], [98], str "ok", none⟩ id
                    createdAt] ∧
                ∀ msg ∈ c2.messages, hasPair sampleUser.email x msg :=
  handleSendMessage_payload sampleUser sampleMessages (some [97, 95, 98]) none (str "ok")
    ⟨some [97, 95, 98], [97], [98], str "ok", none⟩ (by decide)

/-! ## The mark-read patch -/

/-- C25 (idempotent mark-read): applying the patch `{read: true}` twice to a message
gives the record that applying it once gives, with `read` true and every other field as
it was; and when the update of a stored message succeeds, the same update on the
resulting store succeeds again and leaves that store as it is. -/
theorem markRead_idempotent (store : List Message) (id : Str) (store1 : List Message)
    (h : storeUpdate store id markReadPatch = some store1) :
    storeUpdate store1 id markReadPatch = some store1 ∧
      ∀ m : Message,
        applyPatch markReadPatch (applyPatch markReadPatch m) = applyPatch markReadPatch m ∧
          (applyPatch markReadPatch m).read = true ∧
          applyPatch markReadPatch m = { m with read := true } := by
  have hidem : ∀ m : Message,
      applyPatch markReadPatch (applyPatch markReadPatch m) = applyPatch markReadPatch m :=
    fun _ => rfl
  have hid : ∀ m : Message, (applyPatch markReadPatch m).id = m.id := fun _ => rfl
  refine ⟨?_, fun m => ⟨hidem m, rfl, rfl⟩⟩
  unfold storeUpdate at h ⊢
  by_cases hany : store.any (fun m => decide (m.id = id)) = true
  · rw [if_pos hany] at h
    have hs := Option.some.inj h
    have hany1 : store1.any (fun m => decide (m.id = id)) = true := by
      rw [List.any_eq_true] at hany ⊢
      obtain ⟨m, hm, hmid⟩ := hany
      have hmid2 : m.id = id := of_decide_eq_true hmid
      refine ⟨applyPatch markReadPatch m, ?_, ?_⟩
      · rw [← hs, List.mem_map]
        exact ⟨m, hm, by rw [if_pos hmid2]⟩
      · rw [hid]
        exact hmid
    rw [if_pos hany1]
    congr 1
    rw [← hs, List.map_map]
    apply List.map_congr_left
    intro m _
    by_cases hmid : m.id = id
    · simp only [Function.comp, hmid, if_true, hid]
      exact hidem m
    · simp only [Function.comp, hmid, if_false]
  · rw [if_neg hany] at h
    cases h

/-- Witness for C25: message 1 of the sample input is marked read. -/
theorem markRead_idempotent_witness :
    storeUpdate (sampleMessages.map (fun m => if m.id = [1] then applyPatch markReadPatch m else m))
        [1] markReadPatch =
      some (sampleMessages.map (fun m => if m.id = [1] then applyPatch markReadPatch m else m)) ∧
      ∀ m : Message,
        applyPatch markReadPatch (applyPatch markReadPatch m) = applyPatch markReadPatch m ∧
          (applyPatch markReadPatch m).read = true ∧
          applyPatch markReadPatch m = { m with read := true } :=
  markRead_idempotent sampleMessages [1] _ (by decide)


/-! ## Records with missing fields -/

theorem RawMap.get_set_self {β : Type} (k : Option Str) (v : β) :
    ∀ m : List (Option Str × β), RawMap.get (RawMap.set m k v) k = some v
  | [] => by simp [RawMap.get, RawMap.set]
  | (k', v') :: m => by
    by_cases hk : k' = k
    · simp [RawMap.get, RawMap.set, hk]
    · simp [RawMap.get, RawMap.set, hk, RawMap.get_set_self k v m]

theorem RawMap.mem_set {β : Type} (k : Option Str) (v : β) :
    ∀ (m : List (Option Str × β)) (p : Option Str × β),
      p ∈ RawMap.set m k v → p ∈ m ∨ p = (k, v)
  | [], p, h => by
    simp only [RawMap.set, List.mem_singleton] at h
    exact Or.inr h
  | (k', v') :: m, p, h => by
    by_cases hk : k' = k
    · simp only [RawMap.set, hk, if_true, List.mem_cons] at h
      rcases h with h | h
      · exact Or.inr h
      · exact Or.inl (List.mem_cons_of_mem _ h)
    · simp only [RawMap.set, hk, if_false, List.mem_cons] at h
      rcases h with h | h
      · exact Or.inl (by rw [h]; exact List.mem_cons_self _ _)
      · rcases RawMap.mem_set k v m p h with h2 | h2
        · exact Or.inl (List.mem_cons_of_mem _ h2)
        · exact Or.inr h2

theorem RawMap.raw_mem_of_get {β : Type} (k : Option Str) (v : β) :
    ∀ m : List (Option Str × β), RawMap.get m k = some v → (k, v) ∈ m
  | [], h => by simp [RawMap.get] at h
  | (k', v') :: m, h => by
    by_cases hk : k' = k
    · simp only [RawMap.get, hk, if_true, Option.some.injEq] at h
      rw [hk, h]
      exact List.mem_cons_self _ _
    · simp only [RawMap.get, hk, if_false] at h
      exact List.mem_cons_of_mem _ (RawMap.raw_mem_of_get k v m h)

theorem touchRaw_counted (email : Str) (msg : RawMessage) (conv : RawConversation)
    (h : conv.unreadCount = conv.messages.countP (isUnreadForRaw email)) :
    (touchRaw email msg conv).unreadCount =
      (touchRaw email msg conv).messages.countP (isUnreadForRaw email) := by
  by_cases h1 : isUnreadForRaw email msg = true <;>
    by_cases h2 : dateGreater msg.created_date conv.lastMessage.created_date = true <;>
    simp [touchRaw, h1, h2, h, List.countP_append]

/-- One round of the loop on raw records never throws, and keeps the counts right. -/
theorem aggregateStepRaw_ok (email : Str) (m : List (Option Str × RawConversation))
    (msg : RawMessage) (hm : RawCounted email m) :
    ∃ m2, aggregateStepRaw email m msg = Except.ok m2 ∧ RawCounted email m2 := by
  unfold aggregateStepRaw
  by_cases hi : involvesViewerRaw email msg = true
  · simp only [hi, if_true]
    cases hg : RawMap.get m msg.conversation_id with
    | none =>
      have hs := RawMap.get_set_self msg.conversation_id (freshRawConversation email msg) m
      simp only [RawMap.has, hg, Option.isSome_none, Bool.not_false, if_true, hs]
      refine ⟨_, rfl, ?_⟩
      intro p hp
      rcases RawMap.mem_set _ _ _ p hp with hp | hp
      · rcases RawMap.mem_set _ _ _ p hp with hp | hp
        · exact hm p hp
        · rw [hp]
          rfl
      · rw [hp]
        exact touchRaw_counted email msg _ rfl
    | some conv =>
      simp only [RawMap.has, hg, Option.isSome_some, Bool.not_true, Bool.false_eq_true,
        if_false]
      refine ⟨_, rfl, ?_⟩
      intro p hp
      rcases RawMap.mem_set _ _ _ p hp with hp | hp
      · exact hm p hp
      · rw [hp]
        exact touchRaw_counted email msg conv (hm _ (RawMap.raw_mem_of_get _ _ m hg))
  · simp only [hi]
    exact ⟨m, rfl, hm⟩

theorem forEachRaw_ok (email : Str) :
    ∀ (msgs : List RawMessage) (m : List (Option Str × RawConversation)),
      RawCounted email m → ∃ m2, forEachRaw email m msgs = Except.ok m2 ∧ RawCounted email m2
  | [], m, hm => ⟨m, rfl, hm⟩
  | msg :: rest, m, hm => by
    obtain ⟨m1, h1, hm1⟩ := aggregateStepRaw_ok email m msg hm
    obtain ⟨m2, h2, hm2⟩ := forEachRaw_ok email rest m1 hm1
    refine ⟨m2, ?_, hm2⟩
    unfold forEachRaw
    rw [h1]
    exact h2

/-- The search callback on raw records and a non-empty query, in terms of substrings. -/
theorem matchesSearchRaw_iff (toLowerCase : Str → Str) (users : List User) (searchQuery : Str)
    (hq : searchQuery ≠ []) (conv : RawConversation) :
    matchesSearchRaw toLowerCase users searchQuery conv = true ↔
      (∃ u name, users.find? (fun u => decide (some u.email = conv.otherUserEmail)) = some u ∧
          u.full_name = some name ∧
          List.IsInfix (toLowerCase searchQuery) (toLowerCase name)) ∨
        ∃ body, conv.lastMessage.message = some body ∧
          List.IsInfix (toLowerCase searchQuery) (toLowerCase body) := by
  have hne : searchQuery.isEmpty = false := by
    cases searchQuery with
    | nil => exact absurd rfl hq
    | cons _ _ => rfl
  unfold matchesSearchRaw
  simp only [hne, Bool.false_or, Bool.or_eq_true]
  apply or_congr
  · cases hfind : users.find? (fun u => decide (some u.email = conv.otherUserEmail)) with
    | none => simp
    | some u =>
      cases hname : u.full_name with
      | none => simp [hname]
      | some name => simp [hname, includes_iff]
  · cases hbody : conv.lastMessage.message with
    | none => simp
    | some body => simp [includes_iff]

/-- C24 (missing fields): on records that may lack any field, the aggregation returns a
list of conversations and does not throw; a message with a missing read flag addressed
to the viewer counts as unread, and every `unreadCount` is the count of such messages
and of those with `read` false; the search returns a sublist of the conversations; and
for a non-empty query a conversation is kept only through a name that is present or a
body that is present, so a missing name and a missing body match nothing. -/
theorem raw_records_graceful (toLowerCase : Str → Str) (user : Option User)
    (allMessages : List RawMessage) (users : List User) (searchQuery : Str) :
    ∃ convs, conversationsRaw user allMessages = Except.ok convs ∧
      (∀ viewer, user = some viewer → ∀ c ∈ convs,
        c.unreadCount = c.messages.countP (fun msg =>
          decide (msg.receiver_email = some viewer.email) && !(msg.read.getD false))) ∧
      (∀ email msg, msg.read = none → msg.receiver_email = some email →
        isUnreadForRaw email msg = true) ∧
      (filteredConversationsRaw toLowerCase convs users searchQuery).Sublist convs ∧
      (searchQuery ≠ [] → ∀ conv,
        (matchesSearchRaw toLowerCase users searchQuery conv = true ↔
          (∃ u name,
              users.find? (fun u => decide (some u.email = conv.otherUserEmail)) = some u ∧
              u.full_name = some name ∧
              List.IsInfix (toLowerCase searchQuery) (toLowerCase name)) ∨
            ∃ body, conv.lastMessage.message = some body ∧
              List.IsInfix (toLowerCase searchQuery) (toLowerCase body)) ∧
          (conv.lastMessage.message = none →
            (users.find? (fun u => decide (some u.email = conv.otherUserEmail))).bind
                (fun u => u.full_name) = none →
            matchesSearchRaw toLowerCase users searchQuery conv = false)) := by
  have hrest : ∀ convs : List RawConversation,
      (∀ email msg, msg.read = none → msg.receiver_email = some email →
        isUnreadForRaw email msg = true) ∧
      (filteredConversationsRaw toLowerCase convs users searchQuery).Sublist convs ∧
      (searchQuery ≠ [] → ∀ conv,
        (matchesSearchRaw toLowerCase users searchQuery conv = true ↔
          (∃ u name,
              users.find? (fun u => decide (some u.email = conv.otherUserEmail)) = some u ∧
              u.full_name = some name ∧
              List.IsInfix (toLowerCase searchQuery) (toLowerCase name)) ∨
            ∃ body, conv.lastMessage.message = some body ∧
              List.IsInfix (toLowerCase searchQuery) (toLowerCase body)) ∧
          (conv.lastMessage.message = none →
            (users.find? (fun u => decide (some u.email = conv.otherUserEmail))).bind
                (fun u => u.full_name) = none →
            matchesSearchRaw toLowerCase users searchQuery conv = false)) := by
    intro convs
    refine ⟨?_, List.filter_sublist _, ?_⟩
    · intro email msg hread hrecv
      simp [isUnreadForRaw, hread, hrecv]
    · intro hq conv
      refine ⟨matchesSearchRaw_iff toLowerCase users searchQuery hq conv, ?_⟩
      intro hbody hname
      have hne : searchQuery.isEmpty = false := by
        cases searchQuery with
        | nil => exact absurd rfl hq
        | cons _ _ => rfl
      unfold matchesSearchRaw
      simp [hne, hbody, hname]
  cases user with
  | none =>
    refine ⟨[], rfl, ?_, hrest []⟩
    intro viewer hv
    cases hv
  | some u =>
    obtain ⟨m, hm, hcount⟩ := forEachRaw_ok u.email allMessages []
      (by
        intro p hp
        cases hp)
    refine ⟨arraySort compareRawConversations (m.map Prod.snd), ?_, ?_, hrest _⟩
    · unfold conversationsRaw
      simp only [hm]
    · intro viewer hv c hc
      have hvu : u = viewer := Option.some.inj hv
      rw [mem_arraySort, List.mem_map] at hc
      obtain ⟨p, hp, hpc⟩ := hc
      rw [← hpc, ← hvu]
      exact hcount p hp

/-- The aggregation of two bare records, each with only the viewer as receiver. -/
theorem conversationsRaw_sample :
    conversationsRaw (some sampleUser) [bareMessage, bareMessage] =
      Except.ok [⟨none, none, bareMessage, 2, [bareMessage, bareMessage]⟩] := by
  rfl


/-! ## Reading and writing the heap -/

theorem readArray_set_ne (heap : ArrayHeap) (a b : Nat) (v : List Message) (h : a ≠ b) :
    readArray (heap.set a v) b = readArray heap b := by
  unfold readArray
  rw [List.getD_eq_getElem?_getD, List.getD_eq_getElem?_getD, List.getElem?_set_ne h]

theorem readArray_set_self (heap : ArrayHeap) (a : Nat) (v : List Message)
    (h : a < heap.length) : readArray (heap.set a v) a = v := by
  unfold readArray
  rw [List.getD_eq_getElem?_getD, List.getElem?_set_self h]
  rfl

theorem readArray_append_lt (heap ext : ArrayHeap) (a : Nat) (h : a < heap.length) :
    readArray (heap ++ ext) a = readArray heap a := by
  unfold readArray
  rw [List.getD_eq_getElem?_getD, List.getD_eq_getElem?_getD, List.getElem?_append_left h]

theorem readArray_append_length (heap : ArrayHeap) (v : List Message) :
    readArray (heap ++ [v]) heap.length = v := by
  unfold readArray
  rw [List.getD_eq_getElem?_getD, List.getElem?_concat_length]
  rfl

theorem deref_set_ne (heap : ArrayHeap) (a : Nat) (v : List Message) (c : ConvObject)
    (h : a ≠ c.messages) : deref (heap.set a v) c = deref heap c := by
  unfold deref
  rw [readArray_set_ne heap a c.messages v h]

theorem deref_append_lt (heap ext : ArrayHeap) (c : ConvObject) (h : c.messages < heap.length) :
    deref (heap ++ ext) c = deref heap c := by
  unfold deref
  rw [readArray_append_lt heap ext c.messages h]

/-! ## The map of objects and the map of conversations -/

theorem JSMap.get_map {β γ : Type} (f : β → γ) (k : Str) :
    ∀ m : List (Str × β),
      JSMap.get (m.map (fun p => (p.1, f p.2))) k = (JSMap.get m k).map f
  | [] => rfl
  | (k', v') :: m => by
    by_cases hk : k' = k
    · simp [JSMap.get, hk]
    · simp [JSMap.get, hk, JSMap.get_map f k m]

theorem JSMap.set_map {β γ : Type} (f : β → γ) (k : Str) (v : β) :
    ∀ m : List (Str × β),
      JSMap.set (m.map (fun p => (p.1, f p.2))) k (f v) =
        (JSMap.set m k v).map (fun p => (p.1, f p.2))
  | [] => rfl
  | (k', v') :: m => by
    by_cases hk : k' = k
    · simp [JSMap.set, hk]
    · simp [JSMap.set, hk, JSMap.set_map f k v m]

theorem JSMap.mem_of_get {β : Type} (k : Str) (v : β) :
    ∀ m : List (Str × β), JSMap.get m k = some v → (k, v) ∈ m
  | [], h => by simp [JSMap.get] at h
  | (k', v') :: m, h => by
    by_cases hk : k' = k
    · simp only [JSMap.get, hk, if_true, Option.some.injEq] at h
      rw [hk, h]
      exact List.mem_cons_self _ _
    · simp only [JSMap.get, hk, if_false] at h
      exact List.mem_cons_of_mem _ (JSMap.mem_of_get k v m h)

theorem JSMap.set_of_get_none {β : Type} (k : Str) (v : β) :
    ∀ m : List (Str × β), JSMap.get m k = none → JSMap.set m k v = m ++ [(k, v)]
  | [], _ => rfl
  | (k', v') :: m, h => by
    by_cases hk : k' = k
    · simp [JSMap.get, hk] at h
    · simp only [JSMap.get, hk, if_false] at h
      simp [JSMap.set, hk, JSMap.set_of_get_none k v m h]

/-- Replacing the object found under `k` by one with the same array keeps the list of
array addresses. -/
theorem JSMap.refs_set (k : Str) (conv conv2 : ConvObject)
    (hsame : conv2.messages = conv.messages) :
    ∀ m : List (Str × ConvObject), JSMap.get m k = some conv →
      (JSMap.set m k conv2).map (fun p => p.2.messages) = m.map (fun p => p.2.messages)
  | [], h => by simp [JSMap.get] at h
  | (k', v') :: m, h => by
    by_cases hk : k' = k
    · simp only [JSMap.get, hk, if_true, Option.some.injEq] at h
      simp [JSMap.set, hk, hsame, h]
    · simp only [JSMap.get, hk, if_false] at h
      simp [JSMap.set, hk, JSMap.refs_set k conv conv2 hsame m h]

/-- Writing the array of the object found under `k`, and replacing that object by one
with the same array, is a `set` on the map of conversations: no other object shares the
array. -/
theorem JSMap.view_set_write (heap : ArrayHeap) (k : Str) (conv conv2 : ConvObject)
    (v : List Message) (hsame : conv2.messages = conv.messages) :
    ∀ m : List (Str × ConvObject), (m.map (fun p => p.2.messages)).Nodup →
      JSMap.get m k = some conv →
      (JSMap.set m k conv2).map (fun p => (p.1, deref (heap.set conv.messages v) p.2)) =
        JSMap.set (m.map (fun p => (p.1, deref heap p.2))) k
          (deref (heap.set conv.messages v) conv2)
  | [], _, h => by simp [JSMap.get] at h
  | (k', v') :: m, hnd, h => by
    rw [List.map_cons, List.nodup_cons] at hnd
    by_cases hk : k' = k
    · simp only [JSMap.get, hk, if_true, Option.some.injEq] at h
      have htail : m.map (fun p => (p.1, deref (heap.set conv.messages v) p.2)) =
          m.map (fun p => (p.1, deref heap p.2)) := by
        apply List.map_congr_left
        intro p hp
        have hne : conv.messages ≠ p.2.messages := by
          intro heq
          apply hnd.1
          rw [h, heq]
          exact List.mem_map_of_mem (fun p => p.2.messages) hp
        rw [deref_set_ne heap conv.messages v p.2 hne]
      simp [JSMap.set, hk, htail]
    · simp only [JSMap.get, hk, if_false] at h
      have hmem := JSMap.mem_of_get k conv m h
      have hne : conv.messages ≠ v'.messages := by
        intro heq
        apply hnd.1
        have hin : conv.messages ∈ m.map (fun p => p.2.messages) :=
          List.mem_map_of_mem (fun p : Str × ConvObject => p.2.messages) hmem
        rw [heq] at hin
        exact hin
      have ih := JSMap.view_set_write heap k conv conv2 v hsame m hnd.2 h
      simp only [JSMap.set, hk, if_false, List.map_cons, ih,
        deref_set_ne heap conv.messages v v' hne]

/-! ## The heap invariant -/

theorem touchObject_messages (email : Str) (msg : Message) (conv : ConvObject) :
    (touchObject email msg conv).messages = conv.messages := by
  by_cases h1 : isUnreadFor email msg = true <;>
    by_cases h2 : msg.created_date > conv.lastMessage.created_date <;>
    simp [touchObject, h1, h2]

/-- The `push` on the heap and the update of the object amount to `touch` on the
conversation. -/
theorem deref_touchObject (heap : ArrayHeap) (email : Str) (msg : Message) (conv : ConvObject)
    (h : conv.messages < heap.length) :
    deref (heap.set conv.messages (readArray heap conv.messages ++ [msg]))
        (touchObject email msg conv) =
      touch email msg (deref heap conv) := by
  have hread := readArray_set_self heap conv.messages (readArray heap conv.messages ++ [msg]) h
  by_cases h1 : isUnreadFor email msg = true <;>
    by_cases h2 : msg.created_date > conv.lastMessage.created_date <;>
    simp [touchObject, touch, deref, h1, h2, hread]

theorem deref_freshObject (heap : ArrayHeap) (email : Str) (msg : Message) :
    deref (heap ++ [[]]) (freshObject email msg heap.length) = freshConversation email msg := by
  unfold deref freshObject freshConversation
  simp only [readArray_append_length]

theorem HeapInv.start (heap0 : ArrayHeap) : HeapInv heap0.length heap0 heap0 [] [] :=
  ⟨fun _ _ => rfl, le_refl _, rfl, by simp, by simp⟩

/-- Allocating the array of a thread seen for the first time. -/
theorem HeapInv.alloc {base : Nat} {heap0 heap : ArrayHeap} {mH : List (Str × ConvObject)}
    {mP : List (Str × Conversation)} (h : HeapInv base heap0 heap mH mP) (email : Str)
    (msg : Message) (hget : JSMap.get mH msg.conversation_id = none) :
    HeapInv base heap0 (heap ++ [[]])
      (JSMap.set mH msg.conversation_id (freshObject email msg heap.length))
      (JSMap.set mP msg.conversation_id (freshConversation email msg)) := by
  have hview : mH.map (fun p => (p.1, deref (heap ++ [[]]) p.2)) = mP := by
    rw [← h.view]
    apply List.map_congr_left
    intro p hp
    rw [deref_append_lt heap [[]] p.2 (h.refs p hp).2]
  refine ⟨?_, ?_, ?_, ?_, ?_⟩
  · intro a ha
    rw [readArray_append_lt heap [[]] a (lt_of_lt_of_le ha h.len)]
    exact h.frame a ha
  · rw [List.length_append]
    exact le_trans h.len (Nat.le_add_right _ _)
  · rw [← JSMap.set_map (deref (heap ++ [[]])), hview, deref_freshObject]
  · intro p hp
    rw [JSMap.set_of_get_none _ _ mH hget, List.mem_append, List.mem_singleton] at hp
    rw [List.length_append]
    rcases hp with hp | hp
    · exact ⟨(h.refs p hp).1, lt_of_lt_of_le (h.refs p hp).2 (Nat.le_add_right _ _)⟩
    · rw [hp]
      exact ⟨h.len, Nat.lt_succ_self _⟩
  · rw [JSMap.set_of_get_none _ _ mH hget, List.map_append, List.nodup_append]
    refine ⟨h.nodup, List.nodup_singleton _, ?_⟩
    intro a ha hb
    rw [List.map_singleton, List.mem_singleton] at hb
    obtain ⟨p, hp, hpa⟩ := List.mem_map.mp ha
    have hlt := (h.refs p hp).2
    rw [hpa, hb] at hlt
    exact absurd hlt (lt_irrefl _)

/-- Pushing a message on the array of its thread and updating the object. -/
theorem HeapInv.write {base : Nat} {heap0 heap : ArrayHeap} {mH : List (Str × ConvObject)}
    {mP : List (Str × Conversation)} (h : HeapInv base heap0 heap mH mP) (email : Str)
    (msg : Message) (k : Str) (conv : ConvObject) (hget : JSMap.get mH k = some conv) :
    HeapInv base heap0 (heap.set conv.messages (readArray heap conv.messages ++ [msg]))
      (JSMap.set mH k (touchObject email msg conv))
      (JSMap.set mP k (touch email msg (deref heap conv))) := by
  have hmem := JSMap.mem_of_get k conv mH hget
  have hbound := h.refs _ hmem
  have hsame := touchObject_messages email msg conv
  refine ⟨?_, ?_, ?_, ?_, ?_⟩
  · intro a ha
    have hne : conv.messages ≠ a := by
      intro heq
      rw [← heq] at ha
      exact absurd ha (not_lt_of_le hbound.1)
    rw [readArray_set_ne heap conv.messages a _ hne]
    exact h.frame a ha
  · rw [List.length_set]
    exact h.len
  · rw [JSMap.view_set_write heap k conv (touchObject email msg conv) _ hsame mH h.nodup hget,
      h.view, deref_touchObject heap email msg conv hbound.2]
  · intro p hp
    rw [List.length_set]
    have hrefs : p.2.messages ∈ mH.map (fun p => p.2.messages) := by
      rw [← JSMap.refs_set k conv (touchObject email msg conv) hsame mH hget]
      exact List.mem_map_of_mem (fun p : Str × ConvObject => p.2.messages) hp
    obtain ⟨q, hq, hqp⟩ := List.mem_map.mp hrefs
    have hb := h.refs q hq
    rw [hqp] at hb
    exact hb
  · rw [JSMap.refs_set k conv (touchObject email msg conv) hsame mH hget]
    exact h.nodup

/-- One round of the loop on the heap is one round of the loop on conversations. -/
theorem HeapInv.heap_step {base : Nat} {heap0 heap : ArrayHeap} {mH : List (Str × ConvObject)}
    {mP : List (Str × Conversation)} (h : HeapInv base heap0 heap mH mP) (email : Str)
    (msg : Message) :
    HeapInv base heap0 (heapStep email (heap, mH) msg).1 (heapStep email (heap, mH) msg).2
      (aggregateStep email mP msg) := by
  unfold heapStep aggregateStep
  by_cases hi : involvesViewer email msg = true
  · simp only [hi, if_true]
    have hgetP : JSMap.get mP msg.conversation_id =
        (JSMap.get mH msg.conversation_id).map (deref heap) := by
      rw [← h.view]
      exact JSMap.get_map (deref heap) msg.conversation_id mH
    cases hg : JSMap.get mH msg.conversation_id with
    | none =>
      rw [hg] at hgetP
      have h1 := h.alloc email msg hg
      have hg1 := JSMap.get_set_of_get_none msg.conversation_id
        (freshObject email msg heap.length) mH hg
      have hgP1 := JSMap.get_set_of_get_none msg.conversation_id
        (freshConversation email msg) mP hgetP
      have h2 := h1.write email msg msg.conversation_id _ hg1
      rw [deref_freshObject] at h2
      simp only [JSMap.has, hg, hgetP, Option.map_none', Option.isSome_none, Bool.not_false,
        if_true, hg1, hgP1]
      exact h2
    | some conv =>
      rw [hg] at hgetP
      have h2 := h.write email msg msg.conversation_id conv hg
      simp only [JSMap.has, hg, hgetP, Option.map_some', Option.isSome_some, Bool.not_true,
        Bool.false_eq_true, if_false]
      exact h2
  · simp only [hi]
    exact h

theorem HeapInv.fold {base : Nat} {heap0 : ArrayHeap} (email : Str) :
    ∀ (l : List Message) (st : ArrayHeap × List (Str × ConvObject))
      (mP : List (Str × Conversation)), HeapInv base heap0 st.1 st.2 mP →
      HeapInv base heap0 (l.foldl (heapStep email) st).1 (l.foldl (heapStep email) st).2
        (l.foldl (aggregateStep email) mP)
  | [], _, _, h => h
  | msg :: rest, st, mP, h => by
    rw [List.foldl_cons, List.foldl_cons]
    exact HeapInv.fold email rest (heapStep email st msg) (aggregateStep email mP msg)
      (h.heap_step email msg)

/-! ## Determinism and the input array -/

/-- The aggregation on the heap returns the conversations of the aggregation on values,
writes no array that existed before, and gives every conversation an array allocated
during the evaluation. -/
theorem heapConversations_spec (user : Option User) (heap : ArrayHeap) (input : Nat) :
    heapResult user heap input = conversations user (readArray heap input) ∧
      heap.length ≤ (heapConversations user heap input).1.length ∧
      (∀ a, a < heap.length →
        readArray (heapConversations user heap input).1 a = readArray heap a) ∧
      ∀ c ∈ (heapConversations user heap input).2,
        heap.length ≤ c.messages ∧ c.messages < (heapConversations user heap input).1.length := by
  cases user with
  | none =>
    refine ⟨rfl, le_refl _, fun _ _ => rfl, ?_⟩
    intro c hc
    cases hc
  | some u =>
    have hinv := HeapInv.fold u.email (readArray heap input) (heap, []) [] (HeapInv.start heap)
    have hst : heapConversations (some u) heap input =
        (((readArray heap input).foldl (heapStep u.email) (heap, [])).1,
          arraySort compareObjects
            (JSMap.values ((readArray heap input).foldl (heapStep u.email) (heap, [])).2)) := rfl
    refine ⟨?_, ?_, ?_, ?_⟩
    · unfold heapResult
      rw [hst]
      simp only []
      unfold conversations buildConvMap arraySort
      rw [List.map_insertionSort (fun a b => compareObjects a b ≤ 0)
        (fun a b => compareConversations a b ≤ 0)]
      · congr 1
        rw [← hinv.view]
        unfold JSMap.values
        rw [List.map_map, List.map_map]
        rfl
      · intro a _ b _
        exact Iff.rfl
    · rw [hst]
      exact hinv.len
    · intro a ha
      rw [hst]
      exact hinv.frame a ha
    · intro c hc
      rw [hst] at hc ⊢
      simp only [] at hc ⊢
      rw [mem_arraySort] at hc
      unfold JSMap.values at hc
      obtain ⟨p, hp, hpc⟩ := List.mem_map.mp hc
      rw [← hpc]
      exact hinv.refs p hp

/-- The value of `currentMessages` on the heap is the one on values, and the sort writes
at most the array of a conversation. -/
theorem heapCurrentMessages_spec (heap : ArrayHeap) (convs : List ConvObject)
    (sel : Option Str) :
    (heapCurrentMessages heap convs sel).2 = currentMessages (convs.map (deref heap)) sel ∧
      ∀ a, (∀ c ∈ convs, c.messages ≠ a) →
        readArray (heapCurrentMessages heap convs sel).1 a = readArray heap a := by
  have hfind : (convs.map (deref heap)).find? (fun c => decide (some c.id = sel)) =
      (convs.find? (fun c => decide (some c.id = sel))).map (deref heap) := by
    rw [List.find?_map]
    rfl
  unfold heapCurrentMessages currentMessages currentConversation
  rw [hfind]
  cases hf : convs.find? (fun c => decide (some c.id = sel)) with
  | none => exact ⟨rfl, fun _ _ => rfl⟩
  | some c =>
    refine ⟨rfl, ?_⟩
    intro a ha
    have hc : c ∈ convs := List.mem_of_find?_eq_some hf
    exact readArray_set_ne heap c.messages a _ (ha c hc)

/-- C21 (determinism and snapshot-only reads): with the input list an array of the heap,
an evaluation of the aggregation returns the conversations that the input determines;
the aggregation followed by `currentMessages` leaves every array that existed before,
the input list with its records included, as it was; and a second evaluation on the
same input, after that, returns the same list of conversations with the same fields. -/
theorem aggregation_deterministic_snapshot (user : Option User) (heap : ArrayHeap)
    (input : Nat) (sel : Option Str) (hin : input < heap.length) :
    heapResult user heap input = conversations user (readArray heap input) ∧
      (heapCurrentMessages (heapConversations user heap input).1
          (heapConversations user heap input).2 sel).2 =
        currentMessages (conversations user (readArray heap input)) sel ∧
      (∀ a, a < heap.length →
        readArray (heapAfterRender user heap input sel) a = readArray heap a) ∧
      readArray (heapAfterRender user heap input sel) input = readArray heap input ∧
      heapResult user (heapAfterRender user heap input sel) input =
        heapResult user heap input := by
  obtain ⟨hres, _, hframe, hrefs⟩ := heapConversations_spec user heap input
  obtain ⟨hcur, hsort⟩ := heapCurrentMessages_spec (heapConversations user heap input).1
    (heapConversations user heap input).2 sel
  have hall : ∀ a, a < heap.length →
      readArray (heapAfterRender user heap input sel) a = readArray heap a := by
    intro a ha
    unfold heapAfterRender
    rw [hsort a, hframe a ha]
    intro c hc heq
    have hb := (hrefs c hc).1
    rw [heq] at hb
    exact absurd ha (not_lt_of_le hb)
  refine ⟨hres, ?_, hall, hall input hin, ?_⟩
  · rw [hcur]
    unfold heapResult at hres
    rw [hres]
  · rw [(heapConversations_spec user (heapAfterRender user heap input sel) input).1,
      hall input hin, hres]

/-- Witness for C21: the newest-first sample input at address 1, thread `a_b` selected. -/
theorem aggregation_deterministic_snapshot_witness :
    heapResult (some sampleUser) [[], newestFirstMessages] 1 =
        conversations (some sampleUser) (readArray [[], newestFirstMessages] 1) ∧
      (heapCurrentMessages (heapConversations (some sampleUser) [[], newestFirstMessages] 1).1
          (heapConversations (some sampleUser) [[], newestFirstMessages] 1).2
          (some [97, 95, 98])).2 =
        currentMessages
          (conversations (some sampleUser) (readArray [[], newestFirstMessages] 1))
          (some [97, 95, 98]) ∧
      (∀ a, a < ([[], newestFirstMessages] : ArrayHeap).length →
        readArray (heapAfterRender (some sampleUser) [[], newestFirstMessages] 1
            (some [97, 95, 98])) a =
          readArray [[], newestFirstMessages] a) ∧
      readArray (heapAfterRender (some sampleUser) [[], newestFirstMessages] 1
          (some [97, 95, 98])) 1 =
        readArray [[], newestFirstMessages] 1 ∧
      heapResult (some sampleUser)
          (heapAfterRender (some sampleUser) [[], newestFirstMessages] 1 (some [97, 95, 98])) 1 =
        heapResult (some sampleUser) [[], newestFirstMessages] 1 :=
  aggregation_deterministic_snapshot (some sampleUser) [[], newestFirstMessages] 1
    (some [97, 95, 98]) (by decide)

/-- The heap of the sample after one render: the input array is as it was, the array of
the selected conversation has been sorted in place. -/
theorem heapAfterRender_sample :
    heapAfterRender (some sampleUser) [[], newestFirstMessages] 1 (some [97, 95, 98]) =
      [[], newestFirstMessages, [sampleMsgC 3 30],
        [sampleMsg 1 false false 10, sampleMsg 2 true true 20]] := by
  decide

end CommunityProject
